import Mathlib

/-!
Verification of the cross-store relational data migration engine
(`scripts/migrate-sqlite-to-postgres.ts`).

The embedding mirrors the source functions:
given that the source mutates JavaScript `Map` / `Set` objects in place,
we model them as insertion-ordered association lists (`OMap` / `osetAdd`)
with the exact `Map.set` / `Map.get` / `Set.add` semantics
(setting an existing key updates it in place, new keys are appended;
adding an existing element to a set is a no-op, new elements are appended).
In-degrees are modelled as `Int` because JavaScript numbers can go negative
when the algorithm over-decrements.
-/

namespace Mig

/-- Insertion-ordered map with string keys, modelling a JavaScript `Map`. -/
abbrev OMap (α : Type) := List (String × α)

/-- JavaScript `Map.prototype.set`: update an existing key in place, else append. -/
def omapSet {α : Type} : OMap α → String → α → OMap α
  | [], k, v => [(k, v)]
  | (k', v') :: rest, k, v =>
    if k' = k then (k, v) :: rest else (k', v') :: omapSet rest k v

/-- JavaScript `Map.prototype.get` (first matching key). -/
def omapGet {α : Type} : OMap α → String → Option α
  | [], _ => none
  | (k', v') :: rest, k => if k' = k then some v' else omapGet rest k

/-- Keys of an `OMap`, in insertion order. -/
def omapKeys {α : Type} (m : OMap α) : List String := m.map Prod.fst

/-- JavaScript `Set.prototype.add` on an insertion-ordered set of strings. -/
def osetAdd (s : List String) (k : String) : List String :=
  if s.contains k then s else s ++ [k]

/-- Field kinds of the DMMF metadata (`'scalar' | 'object' | 'enum' | 'unsupported'`). -/
inductive FieldKind where
  | scalar | object | enum | unsupported
deriving DecidableEq, Repr

/-- One field of a DMMF model (the `fields` array elements of `DmmfModel`). -/
structure Field where
  name : String
  kind : FieldKind
  relationName : Option String := none
  relationFromFields : Option (List String) := none
  relationToFields : Option (List String) := none
  type : String
deriving DecidableEq, Repr

/-- A DMMF model: a table descriptor with a name and fields. -/
structure DmmfModel where
  name : String
  fields : List Field
deriving DecidableEq, Repr

/-- The dependency set computed for one model inside `getDependencyGraph`:
the body of the inner `for (const f of model.fields)` loop building `d`. -/
def modelDeps (modelNames : List String) (model : DmmfModel) : List String :=
  model.fields.foldl (fun d f =>
    if f.kind ≠ FieldKind.object then d
    else if (f.relationFromFields.getD []).length = 0 then d
    else if !(modelNames.contains f.type) then d
    else if f.type ≠ model.name then osetAdd d f.type
    else d) []

/-- Embeds `getDependencyGraph`: maps each model name to the set of model
names it stores foreign keys into. -/
def getDependencyGraph (models : List DmmfModel) : OMap (List String) :=
  let modelNames := models.map (fun m => m.name)
  models.foldl (fun deps model => omapSet deps model.name (modelDeps modelNames model)) []

/-- The initial-queue loop shared by both sorts:
`for (const [m, deg] of inDegree.entries()) if (deg === 0) queue.push(m)`. -/
def initQueue (ind : OMap Int) : List String :=
  ind.foldl (fun q e => if e.2 = 0 then q ++ [e.1] else q) []

/-- One child update inside the Kahn loop: decrement the child's in-degree
and enqueue it when the stored value reaches zero. -/
def kahnStep (p : OMap Int × List String) (child : String) : OMap Int × List String :=
  let v := (omapGet p.1 child).getD 0 - 1
  let ind := omapSet p.1 child v
  if v = 0 then (ind, p.2 ++ [child]) else (ind, p.2)

/-- The `while (queue.length)` loop shared (verbatim) by `topoSortModels` and
`topoSortSelfRows`: shift the queue head, emit it, and update its children.
The fuel argument bounds the number of iterations; both callers pass the
number of nodes, which suffices because every node is enqueued at most once. -/
def kahnLoop (children : OMap (List String)) : Nat → OMap Int → List String → List String
  | 0, _, _ => []
  | _ + 1, _, [] => []
  | fuel + 1, ind, m :: rest =>
    let st := ((omapGet children m).getD []).foldl kahnStep (ind, rest)
    m :: kahnLoop children fuel st.1 st.2

/-- The in-degree and children maps built by the two initialization loops of
`topoSortModels` (the `for (const m of models)` loop and the
`for (const [m, d] of deps.entries())` loop). -/
def modelDegChildren (models : List DmmfModel) : OMap Int × OMap (List String) :=
  let init : OMap Int := models.foldl (fun m mo => omapSet m mo.name 0) []
  let initCh : OMap (List String) := models.foldl (fun m mo => omapSet m mo.name []) []
  (getDependencyGraph models).foldl (fun p e =>
    (omapSet p.1 e.1 (e.2.length : Int),
     e.2.foldl (fun ch parent =>
       match omapGet ch parent with
       | some s => omapSet ch parent (osetAdd s e.1)
       | none => ch) p.2)) (init, initCh)

/-- The `sorted` list produced by the Kahn loop of `topoSortModels`,
before the cycle fallback. -/
def modelKahnOrder (models : List DmmfModel) : List String :=
  let dc := modelDegChildren models
  kahnLoop dc.2 models.length dc.1 (initQueue dc.1)

/-- Embeds `topoSortModels`: topological order over tables, appending the
remaining tables in catalog order when a cycle leaves some unordered. -/
def topoSortModels (models : List DmmfModel) : List String :=
  let sorted := modelKahnOrder models
  if sorted.length ≠ models.length then
    sorted ++ (models.map (fun m => m.name)).filter (fun n => !(sorted.contains n))
  else sorted

/-- Embeds `getSelfRelationFkFields`: the FK scalar columns of fields that
point back to the same model. -/
def getSelfRelationFkFields (model : DmmfModel) : List String :=
  model.fields.foldl (fun s f =>
    if f.kind ≠ FieldKind.object then s
    else if f.type ≠ model.name then s
    else (f.relationFromFields.getD []).foldl osetAdd s) []

/-- A row of a self-referential table, reduced to the two columns the
algorithm reads: its `id` and the value stored in the single self-reference
FK column (`none` models both SQL `NULL` and JavaScript `undefined`). -/
structure Row where
  id : String
  parent : Option String
deriving DecidableEq, Repr

/-- The `if (!parentId) continue` test of `topoSortSelfRows`: a JavaScript
falsy parent value (`null`, `undefined`, or the empty string) yields `none`. -/
def rowTruthyParent (r : Row) : Option String :=
  match r.parent with
  | none => none
  | some s => if s = "" then none else some s

/-- The in-degree and children maps built by the two row loops of
`topoSortSelfRows` (initialization to zero, then one increment per row whose
parent value is truthy and present in the row set). -/
def selfInDegChildren (rows : List Row) : OMap Int × OMap (List String) :=
  let init : OMap Int := rows.foldl (fun m r => omapSet m r.id 0) []
  let initCh : OMap (List String) := rows.foldl (fun m r => omapSet m r.id []) []
  rows.foldl (fun p r =>
    match rowTruthyParent r with
    | none => p
    | some pid =>
      if (rows.map (fun x => x.id)).contains pid then
        (omapSet p.1 r.id ((omapGet p.1 r.id).getD 0 + 1),
         match omapGet p.2 pid with
         | some s => omapSet p.2 pid (osetAdd s r.id)
         | none => p.2)
      else p) (init, initCh)

/-- The id order produced by the Kahn loop of `topoSortSelfRows`,
before the cycle fallback. -/
def selfKahnIds (rows : List Row) : List String :=
  let dc := selfInDegChildren rows
  kahnLoop dc.2 rows.length dc.1 (initQueue dc.1)

/-- Result of `topoSortSelfRows`. -/
structure SelfSortResult where
  ordered : List Row
  hasCycle : Bool
deriving DecidableEq, Repr

/-- Embeds `topoSortSelfRows`: order the rows of a self-referential table
parents-first; on a cycle, append the unresolved rows in input order and
set `hasCycle`. -/
def topoSortSelfRows (rows : List Row) : SelfSortResult :=
  let byId : OMap Row := rows.foldl (fun m r => omapSet m r.id r) []
  let orderedIds := selfKahnIds rows
  let ordered := orderedIds.filterMap (fun i => omapGet byId i)
  let hasCycle := ordered.length != rows.length
  if hasCycle then
    ⟨ordered ++ rows.filter (fun r => !((ordered.map (fun x => x.id)).contains r.id)), hasCycle⟩
  else ⟨ordered, hasCycle⟩

/-! The batch transfer engine and the orchestrator (`main`).

The two database connections are external collaborators (Prisma clients);
they are modelled from the spec's Relational Store capability (section 6):
`count` is the length of the table's row list, `findPage` returns the next
`take` rows in ascending primary-key order after the cursor (the source
list is the table's rows in that order), `findMany` returns them all, and
`bulkInsert` either succeeds or is rejected by the destination.
The transfer is generic in the id type; the source uses strings, and only
their decidable linear order (the database's `orderBy id asc`) is relied on. -/

/-- Modelled from the spec: the portion of an ascending-ordered source table
that lies strictly after the cursor row (`skip: 1, cursor: { id: c }`). -/
def srcSuffix {ι : Type} [LinearOrder ι] (src : List ι) : Option ι → List ι
  | none => src
  | some c => src.dropWhile (fun x => decide (x ≤ c))

/-- Modelled from the spec: the Relational Store `findPage` capability,
`findMany({ take, cursor, orderBy: { id: 'asc' } })`. -/
def findPage {ι : Type} [LinearOrder ι] (src : List ι) (b : Nat) (cursor : Option ι) : List ι :=
  (srcSuffix src cursor).take b

/-- Embeds the `while (processed < total)` pagination loop of `main` for one
table, recording the size of every page fetch and the number of bulk inserts.
An empty fetch breaks out of the loop after being recorded. -/
def pageLoop {ι : Type} [LinearOrder ι] (src : List ι) (total b : Nat) :
    Nat → Nat → Option ι → List Nat × Nat
  | 0, _, _ => ([], 0)
  | fuel + 1, processed, cursor =>
    if processed < total then
      let page := findPage src b cursor
      match page.getLast? with
      | none => ([0], 0)
      | some lastId =>
        let r := pageLoop src total b fuel (processed + page.length) (some lastId)
        (page.length :: r.1, r.2 + 1)
    else ([], 0)

/-- The paginated transfer of one table whose source holds `src` (ascending):
`total` is the source count and the loop starts with no cursor. The fuel
`src.length + 1` is an upper bound on the number of iterations, since every
iteration but the last fetches at least one row. -/
def pagedTransfer {ι : Type} [LinearOrder ι] (src : List ι) (b : Nat) : List Nat × Nat :=
  pageLoop src src.length b (src.length + 1) 0 none

/-- Fuel-indexed page-size pattern: the sizes the pagination loop fetches when
`r` rows remain, full batches of `b` followed by the remainder. The fuel
mirrors the fuel of `pageLoop`; `r` itself is always enough. -/
def fetchPatternGo (b : Nat) : Nat → Nat → List Nat
  | _, 0 => []
  | 0, _ + 1 => []
  | fuel + 1, r + 1 =>
    if b = 0 then [0]
    else min b (r + 1) :: fetchPatternGo b fuel (r + 1 - b)

/-- The page sizes the pagination loop fetches when `r` rows remain. -/
def fetchPattern (b r : Nat) : List Nat :=
  fetchPatternGo b r r

/-- Fuel-indexed count of the bulk inserts the pagination loop issues when
`r` rows remain. -/
def insPatternGo (b : Nat) : Nat → Nat → Nat
  | _, 0 => 0
  | 0, _ + 1 => 0
  | fuel + 1, r + 1 =>
    if b = 0 then 0
    else insPatternGo b fuel (r + 1 - b) + 1

/-- The number of bulk inserts the pagination loop issues when `r` rows remain. -/
def insPattern (b r : Nat) : Nat :=
  insPatternGo b r r

/-- Observable store calls issued by the orchestrator, tagged by table. -/
inductive Ev where
  | count (table : String) (n : Nat)
  | findMany (table : String)
  | page (table : String) (got : Nat)
  | insert (table : String) (n : Nat)
deriving DecidableEq, Repr

/-- The chunking loop `for (let i = 0; i < ordered.length; i += batchSize)`.
With `b = 0` the source loop never advances; that unreachable case (the batch
size defaults to 500) is modelled as a single chunk. -/
def chunkList {α : Type} (b : Nat) (l : List α) : List (List α) :=
  if l.isEmpty then []
  else if b = 0 then [l]
  else l.take b :: chunkList b (l.drop b)
termination_by l.length
decreasing_by
  simp only [List.isEmpty_eq_true] at *
  have : l ≠ [] := by assumption
  have : 0 < l.length := List.length_pos.mpr this
  simp only [List.length_drop]
  omega

/-- The chunked `createMany` loop of the self-referential path: one insert
event per chunk while the destination accepts them; a rejected bulk insert
throws, which the embedding records as an error value. -/
def chunkedInsert (t : String) (insertOk : Bool) : List (List Row) → List Ev × Option String
  | [] => ([], none)
  | c :: rest =>
    if insertOk then
      let r := chunkedInsert t insertOk rest
      (Ev.insert t c.length :: r.1, r.2)
    else ([], some "createMany failed")

/-- Page fetch over a source table of rows in ascending id order
(String ids, as in the source). -/
def findPageRows (src : List Row) (b : Nat) (cursor : Option String) : List Row :=
  (match cursor with
   | none => src
   | some c => src.dropWhile (fun r => decide (r.id ≤ c))).take b

/-- The standard (paginated) per-table path of `main`, with fallible inserts:
a rejected `createMany` throws, recorded as an error value; the page fetched
before it is still recorded as a store call. -/
def pagedMigrate (t : String) (src : List Row) (insertOk : Bool) (total b : Nat) :
    Nat → Nat → Option String → List Ev × Option String
  | 0, _, _ => ([], none)
  | fuel + 1, processed, cursor =>
    if processed < total then
      let page := findPageRows src b cursor
      match page.getLast? with
      | none => ([Ev.page t 0], none)
      | some lastRow =>
        if insertOk then
          let r := pagedMigrate t src insertOk total b fuel (processed + page.length)
            (some lastRow.id)
          (Ev.page t page.length :: Ev.insert t page.length :: r.1, r.2)
        else ([Ev.page t page.length], some "createMany failed")
    else ([], none)

/-- The per-table body of the `for (const modelName of orderedModelNames)`
loop of `main`: count the source rows, skip empty tables without contacting
the destination, use the self-reference path when exactly one self-FK column
exists, and paginate otherwise. `src` gives each table's rows in ascending id
order; `insertOk` says whether the destination accepts inserts for a table. -/
def migrateTable (src : String → List Row) (insertOk : String → Bool) (b : Nat)
    (model : DmmfModel) : List Ev × Option String :=
  let t := model.name
  let rows := src t
  let total := rows.length
  if total = 0 then ([Ev.count t 0], none)
  else if (getSelfRelationFkFields model).length = 1 then
    let res := topoSortSelfRows rows
    let ci := chunkedInsert t (insertOk t) (chunkList b res.ordered)
    (Ev.count t total :: Ev.findMany t :: ci.1, ci.2)
  else
    let pm := pagedMigrate t rows (insertOk t) total b (total + 1) 0 none
    (Ev.count t total :: pm.1, pm.2)

/-- The orchestrator loop of `main` over the resolved table order. A table
whose model or delegate is missing is skipped; a thrown insert error
propagates out of the loop at once, so the remaining tables are not visited. -/
def migrateLoop (models : List DmmfModel) (delegates : String → Bool)
    (src : String → List Row) (insertOk : String → Bool) (b : Nat) :
    List String → List Ev × Option String
  | [] => ([], none)
  | t :: rest =>
    match models.find? (fun m => m.name == t) with
    | none => migrateLoop models delegates src insertOk b rest
    | some model =>
      if delegates t then
        match migrateTable src insertOk b model with
        | (evs, none) =>
          let r := migrateLoop models delegates src insertOk b rest
          (evs ++ r.1, r.2)
        | (evs, some e) => (evs, some e)
      else migrateLoop models delegates src insertOk b rest

/-- Embeds `main`: resolve the table order and migrate each table in turn.
The error component is the exception that reaches `main().catch`, if any. -/
def runMigration (models : List DmmfModel) (delegates : String → Bool)
    (src : String → List Row) (insertOk : String → Bool) (b : Nat) :
    List Ev × Option String :=
  migrateLoop models delegates src insertOk b (topoSortModels models)

/-- The process exit status: `main().catch` calls `process.exit(1)` exactly
when an error escaped the run. -/
def exitCode (r : List Ev × Option String) : Nat :=
  match r.2 with
  | none => 0
  | some _ => 1

/-- The table an event is addressed to. -/
def evTable : Ev → String
  | Ev.count t _ => t
  | Ev.findMany t => t
  | Ev.page t _ => t
  | Ev.insert t _ => t

/-! Concrete inputs used by the scenario parts of the claims. -/

/-- The `Post` table: a relation field whose FK column `userId` lives on `Post`. -/
def postModel : DmmfModel :=
  ⟨"Post", [⟨"author", FieldKind.object, some "PostToUser", some ["userId"], some ["id"], "User"⟩]⟩

/-- The scenario catalog `[Post, User, Role]` where `Post` depends on `User`. -/
def catalogPUR : List DmmfModel :=
  [postModel, ⟨"User", []⟩, ⟨"Role", []⟩]

/-- A two-table catalog whose dependency graph is a cycle (`A → B → A`). -/
def catalogCycle : List DmmfModel :=
  [⟨"A", [⟨"b", FieldKind.object, some "AToB", some ["bId"], some ["id"], "B"⟩]⟩,
   ⟨"B", [⟨"a", FieldKind.object, some "AToB", some ["aId"], some ["id"], "A"⟩]⟩]

/-- The `Task` scenario rows `{1, null}, {2, 1}, {3, 2}` in input order `[3, 1, 2]`. -/
def taskRows : List Row :=
  [⟨"3", some "2"⟩, ⟨"1", none⟩, ⟨"2", some "1"⟩]

/-- The two-row cycle scenario `{1, parent 2}, {2, parent 1}`. -/
def taskRowsCycle : List Row :=
  [⟨"1", some "2"⟩, ⟨"2", some "1"⟩]

/-- A row whose id is the empty string together with a row whose parent-FK
value is the empty string. -/
def blankRows : List Row :=
  [⟨"", none⟩, ⟨"x", some ""⟩]

/-- The dependency list of a table name, as the dependency graph records it. -/
def depsOfModel (models : List DmmfModel) : String → List String :=
  fun n =>
    match models.find? (fun m => m.name == n) with
    | some mo => modelDeps (models.map (fun m => m.name)) mo
    | none => []

/-- Whether a row's parent value is truthy and the parent row is present in
the row set — exactly the condition under which `topoSortSelfRows` counts an
in-degree for the row. -/
def selfHasDep (rows : List Row) (r : Row) : Bool :=
  match rowTruthyParent r with
  | some pid => (rows.map (fun x => x.id)).contains pid
  | none => false

/-- The row-level dependency list of a row id (at most one parent). -/
def depsOfRow (rows : List Row) : String → List String :=
  fun x =>
    match rows.find? (fun r => r.id == x) with
    | some r =>
      match rowTruthyParent r with
      | some pid => if (rows.map (fun y => y.id)).contains pid then [pid] else []
      | none => []
    | none => []

/-- The in-degree component of one iteration of the row loop of
`topoSortSelfRows`. -/
def selfIndStep (rows : List Row) (ind : OMap Int) (r : Row) : OMap Int :=
  match rowTruthyParent r with
  | none => ind
  | some pid =>
    if (rows.map (fun x => x.id)).contains pid then
      omapSet ind r.id ((omapGet ind r.id).getD 0 + 1)
    else ind

/-- The children-map component of one iteration of the row loop of
`topoSortSelfRows`. -/
def selfChStep (rows : List Row) (ch : OMap (List String)) (r : Row) : OMap (List String) :=
  match rowTruthyParent r with
  | none => ch
  | some pid =>
    if (rows.map (fun x => x.id)).contains pid then
      match omapGet ch pid with
      | some s => omapSet ch pid (osetAdd s r.id)
      | none => ch
    else ch

/-- The `byId` map of `topoSortSelfRows`. -/
def rowById (rows : List Row) : OMap Row :=
  rows.foldl (fun m r => omapSet m r.id r) []

/-- The row list produced by the Kahn loop of `topoSortSelfRows`
(`orderedIds` mapped back through `byId`), before the cycle fallback. -/
def selfKahnRows (rows : List Row) : List Row :=
  (selfKahnIds rows).filterMap (fun i => omapGet (rowById rows) i)

/-- Every element of `l` is preceded (within `l`) by all its dependencies. -/
def GoodOrder (deps : String → List String) (l : List String) : Prop :=
  ∀ p n s, l = p ++ n :: s → ∀ b ∈ deps n, b ∈ p

/-- The elements of `l` whose dependency list is exactly `[p]`
(the sibling class of the parent `p`). -/
def sibClass (deps : String → List String) (p : String) (l : List String) : List String :=
  l.filter (fun c => decide (deps c = [p]))

/-- The elements of `l` with no dependencies (the root class). -/
def rootClass (deps : String → List String) (l : List String) : List String :=
  l.filter (fun c => decide (deps c = []))

/-! Basic lemmas about the `Map` / `Set` model. -/

theorem omapGet_omapSet_self {α : Type} (m : OMap α) (k : String) (v : α) :
    omapGet (omapSet m k v) k = some v := by
  induction m with
  | nil => simp [omapSet, omapGet]
  | cons e rest ih =>
    obtain ⟨k', v'⟩ := e
    by_cases h : k' = k <;> simp [omapSet, omapGet, h, ih]

theorem omapGet_omapSet_ne {α : Type} (m : OMap α) {k k' : String} (v : α) (h : k' ≠ k) :
    omapGet (omapSet m k v) k' = omapGet m k' := by
  have h' : k ≠ k' := fun hh => h hh.symm
  induction m with
  | nil => simp [omapSet, omapGet, h']
  | cons e rest ih =>
    obtain ⟨k₀, v₀⟩ := e
    by_cases hk : k₀ = k
    · subst hk
      simp [omapSet, omapGet, h']
    · simp [omapSet, omapGet, hk, ih]

theorem omapKeys_omapSet_of_mem {α : Type} {m : OMap α} {k : String} (v : α)
    (h : k ∈ omapKeys m) : omapKeys (omapSet m k v) = omapKeys m := by
  induction m with
  | nil => simp [omapKeys] at h
  | cons e rest ih =>
    obtain ⟨k₀, v₀⟩ := e
    by_cases hk : k₀ = k
    · simp [omapSet, omapKeys, hk]
    · simp only [omapKeys, List.map_cons, List.mem_cons] at h
      rcases h with h | h
      · exact absurd h.symm hk
      · simp only [omapSet, if_neg hk, omapKeys, List.map_cons]
        exact congrArg (fun l => k₀ :: l) (ih h)

theorem omapSet_of_not_mem {α : Type} {m : OMap α} {k : String} (v : α)
    (h : k ∉ omapKeys m) : omapSet m k v = m ++ [(k, v)] := by
  induction m with
  | nil => simp [omapSet]
  | cons e rest ih =>
    obtain ⟨k₀, v₀⟩ := e
    simp only [omapKeys, List.map_cons, List.mem_cons, not_or] at h
    have hk : k₀ ≠ k := fun hh => h.1 hh.symm
    simp [omapSet, hk, ih h.2]

theorem omapGet_eq_none_iff {α : Type} {m : OMap α} {k : String} :
    omapGet m k = none ↔ k ∉ omapKeys m := by
  induction m with
  | nil => simp [omapGet, omapKeys]
  | cons e rest ih =>
    obtain ⟨k₀, v₀⟩ := e
    by_cases hk : k₀ = k
    · subst hk
      simp [omapGet, omapKeys]
    · have hk' : k ≠ k₀ := fun hh => hk hh.symm
      simp [omapGet, omapKeys, hk, hk', ih]

theorem omapGet_isSome_of_mem {α : Type} {m : OMap α} {k : String}
    (h : k ∈ omapKeys m) : ∃ v, omapGet m k = some v := by
  cases hg : omapGet m k with
  | none => exact absurd (omapGet_eq_none_iff.mp hg) (not_not.mpr h)
  | some v => exact ⟨v, rfl⟩

theorem mem_omapKeys_of_get {α : Type} {m : OMap α} {k : String} {v : α}
    (h : omapGet m k = some v) : k ∈ omapKeys m := by
  by_cases hk : k ∈ omapKeys m
  · exact hk
  · rw [omapGet_eq_none_iff.mpr hk] at h
    cases h

theorem omapGet_mem {α : Type} {m : OMap α} {k : String} {v : α}
    (h : omapGet m k = some v) : (k, v) ∈ m := by
  induction m with
  | nil => simp [omapGet] at h
  | cons e rest ih =>
    obtain ⟨k₀, v₀⟩ := e
    by_cases hk : k₀ = k
    · subst hk
      simp [omapGet] at h
      simp [h]
    · simp only [omapGet, if_neg hk] at h
      exact List.mem_cons_of_mem _ (ih h)

theorem omapGet_of_mem_nodup {α : Type} {m : OMap α} {k : String} {v : α}
    (hn : (omapKeys m).Nodup) (h : (k, v) ∈ m) : omapGet m k = some v := by
  induction m with
  | nil => simp at h
  | cons e rest ih =>
    obtain ⟨k₀, v₀⟩ := e
    simp only [omapKeys, List.map_cons, List.nodup_cons] at hn
    rcases List.mem_cons.mp h with h | h
    · injection h with h1 h2
      subst h1
      subst h2
      simp [omapGet]
    · have hk : k₀ ≠ k := by
        intro hh
        subst hh
        exact hn.1 (List.mem_map.mpr ⟨(k₀, v), h, rfl⟩)
      simp [omapGet, hk, ih hn.2 h]

theorem mem_osetAdd {s : List String} {k x : String} :
    x ∈ osetAdd s k ↔ x ∈ s ∨ x = k := by
  unfold osetAdd
  split
  · rename_i h
    have hk : k ∈ s := by simpa [List.contains, List.elem_iff] using h
    constructor
    · exact Or.inl
    · rintro (h | rfl)
      · exact h
      · exact hk
  · simp

theorem nodup_osetAdd {s : List String} (k : String) (h : s.Nodup) :
    (osetAdd s k).Nodup := by
  unfold osetAdd
  split
  · exact h
  · rename_i hc
    have : k ∉ s := by simpa [List.contains, List.elem_iff] using hc
    simp [List.nodup_append, h, this]

theorem contains_iff_mem {s : List String} {k : String} :
    s.contains k = true ↔ k ∈ s := by
  simp [List.contains, List.elem_iff]

/-! Characterizations of the map-building folds. -/

theorem foldl_pair_split {α β γ : Type} (l : List γ) (f : α → γ → α) (g : β → γ → β)
    (a₀ : α) (b₀ : β) :
    l.foldl (fun p x => (f p.1 x, g p.2 x)) (a₀, b₀) = (l.foldl f a₀, l.foldl g b₀) := by
  induction l generalizing a₀ b₀ with
  | nil => rfl
  | cons x l ih => simp [List.foldl_cons, ih]

theorem foldl_set_get_of_not_mem {α β : Type} (l : List β) (key : β → String) (val : β → α)
    (m₀ : OMap α) {k : String} (h : k ∉ l.map key) :
    omapGet (l.foldl (fun m x => omapSet m (key x) (val x)) m₀) k = omapGet m₀ k := by
  induction l generalizing m₀ with
  | nil => rfl
  | cons x l ih =>
    simp only [List.map_cons, List.mem_cons, not_or] at h
    rw [List.foldl_cons, ih _ h.2, omapGet_omapSet_ne _ _ h.1]

theorem foldl_set_get_of_mem {α β : Type} (l : List β) (key : β → String) (val : β → α)
    (m₀ : OMap α) {x : β} (hn : (l.map key).Nodup) (hx : x ∈ l) :
    omapGet (l.foldl (fun m y => omapSet m (key y) (val y)) m₀) (key x) = some (val x) := by
  induction l generalizing m₀ with
  | nil => simp at hx
  | cons y l ih =>
    simp only [List.map_cons, List.nodup_cons] at hn
    rcases List.mem_cons.mp hx with rfl | hx
    · rw [List.foldl_cons, foldl_set_get_of_not_mem _ _ _ _ hn.1, omapGet_omapSet_self]
    · rw [List.foldl_cons]
      exact ih _ hn.2 hx

theorem foldl_set_eq_append {α β : Type} (l : List β) (key : β → String) (val : β → α)
    (m₀ : OMap α) (hn : (l.map key).Nodup) (hf : ∀ x ∈ l, key x ∉ omapKeys m₀) :
    l.foldl (fun m x => omapSet m (key x) (val x)) m₀ =
      m₀ ++ l.map (fun x => (key x, val x)) := by
  induction l generalizing m₀ with
  | nil => simp
  | cons x l ih =>
    simp only [List.map_cons, List.nodup_cons] at hn
    have hside : ∀ y ∈ l, key y ∉ omapKeys (m₀ ++ [(key x, val x)]) := by
      intro y hy
      simp only [omapKeys, List.map_append, List.mem_append]
      push_neg
      refine ⟨hf y (List.mem_cons_of_mem x hy), ?_⟩
      intro hc
      simp only [List.map_cons, List.map_nil, List.mem_singleton] at hc
      exact hn.1 (hc ▸ List.mem_map.mpr ⟨y, hy, rfl⟩)
    rw [List.foldl_cons, omapSet_of_not_mem _ (hf x (List.mem_cons_self x l)),
      ih _ hn.2 hside]
    simp

theorem omapKeys_foldl_set {α β : Type} (l : List β) (key : β → String) (val : β → α)
    (m₀ : OMap α) (hf : ∀ x ∈ l, key x ∈ omapKeys m₀) :
    omapKeys (l.foldl (fun m x => omapSet m (key x) (val x)) m₀) = omapKeys m₀ := by
  induction l generalizing m₀ with
  | nil => rfl
  | cons x l ih =>
    rw [List.foldl_cons, ih, omapKeys_omapSet_of_mem _ (hf x (List.mem_cons_self x l))]
    intro y hy
    rw [omapKeys_omapSet_of_mem _ (hf x (List.mem_cons_self x l))]
    exact hf y (List.mem_cons_of_mem x hy)

theorem initQueue_go (m : OMap Int) (q₀ : List String) :
    m.foldl (fun q e => if e.2 = 0 then q ++ [e.1] else q) q₀ =
      q₀ ++ (m.filter (fun e => e.2 = 0)).map Prod.fst := by
  induction m generalizing q₀ with
  | nil => simp
  | cons e rest ih =>
    by_cases h : e.2 = 0 <;> simp [List.foldl_cons, List.filter_cons, h, ih]

theorem initQueue_eq (m : OMap Int) :
    initQueue m = (m.filter (fun e => e.2 = 0)).map Prod.fst := by
  simpa using initQueue_go m []

theorem initQueue_eq_filter_keys (m : OMap Int) (hn : (omapKeys m).Nodup) :
    initQueue m = (omapKeys m).filter (fun k => omapGet m k = some 0) := by
  rw [initQueue_eq]
  induction m with
  | nil => rfl
  | cons e rest ih =>
    obtain ⟨k₀, v₀⟩ := e
    simp only [omapKeys, List.map_cons, List.nodup_cons] at hn
    have htail : (rest.filter (fun e => e.2 = 0)).map Prod.fst =
        (List.map Prod.fst rest).filter (fun k => omapGet rest k = some 0) := ih hn.2
    have hcong : (List.map Prod.fst rest).filter
          (fun k => omapGet ((k₀, v₀) :: rest) k = some 0) =
        (List.map Prod.fst rest).filter (fun k => omapGet rest k = some 0) := by
      apply List.filter_congr
      intro k hk
      have hne : k₀ ≠ k := by
        intro hh
        exact hn.1 (hh ▸ hk)
      simp [omapGet, hne]
    show (((k₀, v₀) :: rest).filter (fun e => e.2 = 0)).map Prod.fst =
      (k₀ :: List.map Prod.fst rest).filter (fun k => omapGet ((k₀, v₀) :: rest) k = some 0)
    by_cases h : v₀ = 0
    · rw [List.filter_cons_of_pos (by simp [h]),
        List.filter_cons_of_pos (by simp [omapGet, h])]
      simp only [List.map_cons]
      exact congrArg (fun l => k₀ :: l) (htail.trans hcong.symm)
    · rw [List.filter_cons_of_neg (by simp [h]),
        List.filter_cons_of_neg (by simp [omapGet, h])]
      exact htail.trans hcong.symm

theorem goodorder_nil (deps : String → List String) :
    ∀ p n s, ([] : List String) = p ++ n :: s → ∀ b ∈ deps n, b ∈ p := by
  intro p n s h
  exact absurd h (by simp)

theorem GoodOrder.snoc {deps : String → List String} {l : List String} {m : String}
    (hl : GoodOrder deps l) (hm : ∀ b ∈ deps m, b ∈ l) :
    GoodOrder deps (l ++ [m]) := by
  intro p n s h
  rcases List.eq_nil_or_concat s with rfl | ⟨s', a, rfl⟩
  · obtain ⟨h1, h2⟩ := List.append_inj' h (by rfl)
    obtain rfl : m = n := by simpa using h2
    intro b hb
    exact h1 ▸ hm b hb
  · rw [List.concat_eq_append,
      show p ++ n :: (s' ++ [a]) = (p ++ n :: s') ++ [a] by simp] at h
    obtain ⟨h1, h2⟩ := List.append_inj' h (by rfl)
    exact hl p n s' h1

theorem length_filter_snoc_mem {L d : List String} {m : String}
    (hL : L.Nodup) (hm : m ∈ L) (hd : m ∉ d) :
    (L.filter (fun b => b ∈ d ++ [m])).length = (L.filter (fun b => b ∈ d)).length + 1 := by
  induction L with
  | nil => simp at hm
  | cons a L ih =>
    simp only [List.nodup_cons] at hL
    rcases List.mem_cons.mp hm with heq | hm'
    · subst heq
      have htail : L.filter (fun b => b ∈ d ++ [m]) = L.filter (fun b => b ∈ d) := by
        apply List.filter_congr
        intro b hb
        have hbm : b ≠ m := fun hh => hL.1 (hh ▸ hb)
        simp [hbm]
      rw [List.filter_cons_of_pos (by simp), List.filter_cons_of_neg (by simp [hd]), htail]
      simp
    · have ha : a ≠ m := fun hh => hL.1 (hh ▸ hm')
      by_cases had : a ∈ d
      · rw [List.filter_cons_of_pos (by simp [had]),
          List.filter_cons_of_pos (by simp [had]), List.length_cons, List.length_cons,
          ih hL.2 hm']
      · rw [List.filter_cons_of_neg (by simp [had, ha]),
          List.filter_cons_of_neg (by simp [had])]
        exact ih hL.2 hm'

theorem filter_mem_snoc_of_not_mem {L d : List String} {m : String} (hm : m ∉ L) :
    L.filter (fun b => b ∈ d ++ [m]) = L.filter (fun b => b ∈ d) := by
  apply List.filter_congr
  intro b hb
  have : b ≠ m := fun hh => hm (hh ▸ hb)
  simp [this]

theorem kahnStep_fold (cs : List String) (hcs : cs.Nodup) (ind : OMap Int) (q : List String) :
    (∀ k, omapGet (cs.foldl kahnStep (ind, q)).1 k =
      if k ∈ cs then some ((omapGet ind k).getD 0 - 1) else omapGet ind k) ∧
    (cs.foldl kahnStep (ind, q)).2 =
      q ++ cs.filter (fun c => (omapGet ind c).getD 0 - 1 = 0) := by
  induction cs generalizing ind q with
  | nil => simp
  | cons c cs ih =>
    simp only [List.nodup_cons] at hcs
    have hstep : kahnStep (ind, q) c =
        (omapSet ind c ((omapGet ind c).getD 0 - 1),
         if (omapGet ind c).getD 0 - 1 = 0 then q ++ [c] else q) := by
      simp only [kahnStep]
      split <;> rfl
    obtain ⟨ih1, ih2⟩ := ih hcs.2 (omapSet ind c ((omapGet ind c).getD 0 - 1))
      (if (omapGet ind c).getD 0 - 1 = 0 then q ++ [c] else q)
    rw [List.foldl_cons, hstep]
    constructor
    · intro k
      rw [ih1 k]
      by_cases hk : k ∈ cs
      · have hkc : k ≠ c := fun hh => hcs.1 (hh ▸ hk)
        simp [hk, hkc, omapGet_omapSet_ne _ _ hkc, List.mem_cons]
      · by_cases hkc : k = c
        · subst hkc
          simp [hk, omapGet_omapSet_self]
        · simp [hk, hkc, omapGet_omapSet_ne _ _ hkc, List.mem_cons]
    · rw [ih2]
      have htail : cs.filter
            (fun c' => (omapGet (omapSet ind c ((omapGet ind c).getD 0 - 1)) c').getD 0 - 1 = 0) =
          cs.filter (fun c' => (omapGet ind c').getD 0 - 1 = 0) := by
        apply List.filter_congr
        intro c' hc'
        have : c' ≠ c := fun hh => hcs.1 (hh ▸ hc')
        rw [omapGet_omapSet_ne _ _ this]
      rw [htail, List.filter_cons]
      by_cases hc : (omapGet ind c).getD 0 - 1 = 0 <;> simp [hc]

/-! The Kahn-loop invariant and master lemma, shared by the table-level and the
row-level sort. `ids` lists the nodes (no duplicates) and `deps` assigns each
node the nodes it depends on, which must all be ordered before it. -/

structure KahnInv (ids : List String) (deps : String → List String)
    (done queue : List String) (ind : OMap Int) (ch : OMap (List String)) : Prop where
  idsNd : ids.Nodup
  depsNd : ∀ n ∈ ids, (deps n).Nodup
  depsSub : ∀ n ∈ ids, ∀ b ∈ deps n, b ∈ ids
  chSpec : ∀ p ∈ ids, ∃ l, omapGet ch p = some l ∧ l.Nodup ∧
    ∀ c, c ∈ l ↔ c ∈ ids ∧ p ∈ deps c
  indSpecMem : ∀ n ∈ ids, omapGet ind n =
    some (((deps n).length : Int) - (((deps n).filter (fun b => b ∈ done)).length : Int))
  doneNd : done.Nodup
  doneSub : ∀ n ∈ done, n ∈ ids
  doneGood : GoodOrder deps done
  qNd : queue.Nodup
  qSub : ∀ q ∈ queue, q ∈ ids ∧ q ∉ done
  qIff : ∀ n ∈ ids, n ∉ done → (n ∈ queue ↔ ∀ b ∈ deps n, b ∈ done)

theorem filter_length_lt_of_mem_not {L d : List String} {m : String}
    (hm : m ∈ L) (hd : m ∉ d) :
    ((L.filter (fun b => b ∈ d)).length) < L.length := by
  rcases Nat.lt_or_ge ((L.filter (fun b => b ∈ d)).length) L.length with h | h
  · exact h
  · exfalso
    have hle := List.length_filter_le (fun b => decide (b ∈ d)) L
    have heq : (L.filter (fun b => b ∈ d)) = L :=
      (List.filter_sublist L).eq_of_length (by omega)
    have := List.mem_filter.mp (heq ▸ hm)
    exact hd (by simpa using this.2)

theorem filter_length_eq_iff_all {L d : List String} :
    ((L.filter (fun b => b ∈ d)).length) = L.length ↔ ∀ b ∈ L, b ∈ d := by
  constructor
  · intro h
    have heq : (L.filter (fun b => b ∈ d)) = L :=
      (List.filter_sublist L).eq_of_length h
    intro b hb
    have := List.mem_filter.mp (heq ▸ hb)
    simpa using this.2
  · intro h
    rw [List.filter_eq_self.mpr (fun b hb => by simpa using h b hb)]

theorem kahn_master (ids : List String) (deps : String → List String) :
    ∀ (fuel : Nat) (done queue : List String) (ind : OMap Int) (ch : OMap (List String)),
    KahnInv ids deps done queue ind ch →
    ids.length ≤ fuel + done.length →
    ((done ++ kahnLoop ch fuel ind queue).Nodup ∧
     (∀ n ∈ kahnLoop ch fuel ind queue, n ∈ ids ∧ n ∉ done) ∧
     GoodOrder deps (done ++ kahnLoop ch fuel ind queue) ∧
     (∀ rank : String → Nat, (∀ n ∈ ids, ∀ b ∈ deps n, rank b < rank n) →
       ∀ n ∈ ids, n ∈ done ++ kahnLoop ch fuel ind queue)) := by
  intro fuel
  induction fuel with
  | zero =>
    intro done queue ind ch inv hlen
    rw [show kahnLoop ch 0 ind queue = [] from rfl]
    refine ⟨by simpa using inv.doneNd, by simp, by simpa using inv.doneGood, ?_⟩
    intro rank hrank n hn
    simp only [List.append_nil]
    by_contra hnd
    have hsub : (done ++ [n]).Nodup := by
      simp [List.nodup_append, inv.doneNd, hnd]
    have hsubset : done ++ [n] ⊆ ids := by
      intro x hx
      rcases List.mem_append.mp hx with hx | hx
      · exact inv.doneSub x hx
      · exact (List.mem_singleton.mp hx) ▸ hn
    have hle := (List.subperm_of_subset hsub hsubset).length_le
    simp at hle
    omega
  | succ fuel ih =>
    intro done queue ind ch inv hlen
    match queue with
    | [] =>
      rw [show kahnLoop ch (fuel + 1) ind [] = [] from rfl]
      refine ⟨by simpa using inv.doneNd, by simp, by simpa using inv.doneGood, ?_⟩
      intro rank hrank n hn
      simp only [List.append_nil]
      have key : ∀ k, ∀ x, x ∈ ids → rank x < k → x ∈ done := by
        intro k
        induction k with
        | zero => intro x hx h; omega
        | succ k ihk =>
          intro x hx hlt
          by_contra hnd
          have hdeps : ∀ b ∈ deps x, b ∈ done := by
            intro b hb
            exact ihk b (inv.depsSub x hx b hb)
              (by have := hrank x hx b hb; omega)
          have hq := (inv.qIff x hx hnd).mpr hdeps
          simp at hq
      exact key (rank n + 1) n hn (by omega)
    | m :: rest =>
      obtain ⟨hmids, hmdone⟩ := inv.qSub m (List.mem_cons_self m rest)
      have hmdeps : ∀ b ∈ deps m, b ∈ done :=
        (inv.qIff m hmids hmdone).mp (List.mem_cons_self m rest)
      obtain ⟨cs, hcsget, hcsnd, hcsiff⟩ := inv.chSpec m hmids
      have hmrest : m ∉ rest := (List.nodup_cons.mp inv.qNd).1
      have hrestnd : rest.Nodup := (List.nodup_cons.mp inv.qNd).2
      have hmcs : m ∉ cs := by
        intro hc
        exact hmdone (hmdeps m ((hcsiff m).mp hc).2)
      have hcsids : ∀ c ∈ cs, c ∈ ids := fun c hc => ((hcsiff c).mp hc).1
      have hcsdep : ∀ c ∈ cs, m ∈ deps c := fun c hc => ((hcsiff c).mp hc).2
      obtain ⟨hind, hqout⟩ := kahnStep_fold cs hcsnd ind rest
      have hflt : ∀ c ∈ cs,
          (((deps c).filter (fun b => b ∈ done)).length) < (deps c).length :=
        fun c hc => filter_length_lt_of_mem_not (hcsdep c hc) hmdone
      have hsnoc : ∀ n ∈ ids, m ∈ deps n →
          (((deps n).filter (fun b => b ∈ done ++ [m])).length) =
            (((deps n).filter (fun b => b ∈ done)).length) + 1 :=
        fun n hn hmd => length_filter_snoc_mem (inv.depsNd n hn) hmd hmdone
      have hkeep : ∀ n ∈ ids, m ∉ deps n →
          ((deps n).filter (fun b => b ∈ done ++ [m])) =
            ((deps n).filter (fun b => b ∈ done)) :=
        fun n _ hmd => filter_mem_snoc_of_not_mem hmd
      have hnewly : ∀ c, (c ∈ cs.filter (fun c => (omapGet ind c).getD 0 - 1 = 0)) ↔
          (c ∈ cs ∧ ∀ b ∈ deps c, b ∈ done ++ [m]) := by
        intro c
        rw [List.mem_filter]
        constructor
        · rintro ⟨hc, hcond⟩
          refine ⟨hc, ?_⟩
          rw [inv.indSpecMem c (hcsids c hc)] at hcond
          simp only [Option.getD_some, decide_eq_true_eq] at hcond
          have h1 := hflt c hc
          have h2 := hsnoc c (hcsids c hc) (hcsdep c hc)
          exact filter_length_eq_iff_all.mp (by omega)
        · rintro ⟨hc, hall⟩
          refine ⟨hc, ?_⟩
          rw [inv.indSpecMem c (hcsids c hc)]
          simp only [Option.getD_some, decide_eq_true_eq]
          have h2 := hsnoc c (hcsids c hc) (hcsdep c hc)
          have h3 := filter_length_eq_iff_all.mpr hall
          have h1 := hflt c hc
          omega
      have hnewlyNotDone : ∀ c ∈ cs, c ∉ done := by
        intro c hc hcd
        obtain ⟨p, s, hps⟩ := List.append_of_mem hcd
        have hp : ∀ b ∈ deps c, b ∈ p := inv.doneGood p c s hps
        have hall : ∀ b ∈ deps c, b ∈ done := by
          intro b hb
          rw [hps]
          exact List.mem_append.mpr (Or.inl (hp b hb))
        have := filter_length_eq_iff_all.mpr hall
        have := hflt c hc
        omega
      have hnewlyNotRest : ∀ c ∈ cs, c ∉ rest := by
        intro c hc hcr
        have hcq : c ∈ m :: rest := List.mem_cons_of_mem m hcr
        obtain ⟨hcids, hcdone⟩ := inv.qSub c hcq
        have hall := (inv.qIff c hcids hcdone).mp hcq
        have := filter_length_eq_iff_all.mpr hall
        have := hflt c hc
        omega
      have hloop : kahnLoop ch (fuel + 1) ind (m :: rest) =
          m :: kahnLoop ch fuel (cs.foldl kahnStep (ind, rest)).1
            (rest ++ cs.filter (fun c => (omapGet ind c).getD 0 - 1 = 0)) := by
        conv_lhs => rw [kahnLoop]
        rw [hcsget]
        simp only [Option.getD_some]
        rw [hqout]
      have inv' : KahnInv ids deps (done ++ [m])
          (rest ++ cs.filter (fun c => (omapGet ind c).getD 0 - 1 = 0))
          (cs.foldl kahnStep (ind, rest)).1 ch := by
        refine ⟨inv.idsNd, inv.depsNd, inv.depsSub, inv.chSpec, ?_, ?_, ?_, ?_, ?_, ?_, ?_⟩
        · -- indSpecMem
          intro n hn
          rw [hind n]
          by_cases hc : n ∈ cs
          · rw [if_pos hc, inv.indSpecMem n hn]
            simp only [Option.getD_some]
            rw [hsnoc n hn (hcsdep n hc)]
            push_cast
            ring_nf
          · rw [if_neg hc, inv.indSpecMem n hn]
            have hmd : m ∉ deps n := fun hmd => hc ((hcsiff n).mpr ⟨hn, hmd⟩)
            rw [hkeep n hn hmd]
        · -- doneNd
          simp [List.nodup_append, inv.doneNd, hmdone]
        · -- doneSub
          intro n hn
          rcases List.mem_append.mp hn with hn | hn
          · exact inv.doneSub n hn
          · exact (List.mem_singleton.mp hn) ▸ hmids
        · -- doneGood
          exact GoodOrder.snoc inv.doneGood hmdeps
        · -- qNd
          refine List.Nodup.append hrestnd (List.Nodup.filter _ hcsnd) ?_
          intro c hcr hcn
          exact hnewlyNotRest c (List.mem_filter.mp hcn).1 hcr
        · -- qSub
          intro q hq
          rcases List.mem_append.mp hq with hq | hq
          · obtain ⟨h1, h2⟩ := inv.qSub q (List.mem_cons_of_mem m hq)
            refine ⟨h1, ?_⟩
            simp only [List.mem_append, List.mem_singleton, not_or]
            exact ⟨h2, fun hh => hmrest (hh ▸ hq)⟩
          · have hc := (List.mem_filter.mp hq).1
            refine ⟨hcsids _ hc, ?_⟩
            simp only [List.mem_append, List.mem_singleton, not_or]
            exact ⟨hnewlyNotDone _ hc, fun hh => hmcs (hh ▸ hc)⟩
        · -- qIff
          intro n hn hnd
          simp only [List.mem_append, List.mem_singleton, not_or] at hnd
          constructor
          · intro hq
            rcases List.mem_append.mp hq with hq | hq
            · have := (inv.qIff n hn hnd.1).mp (List.mem_cons_of_mem m hq)
              intro b hb
              exact List.mem_append.mpr (Or.inl (this b hb))
            · exact ((hnewly n).mp hq).2
          · intro hall
            by_cases hmd : m ∈ deps n
            · have hc : n ∈ cs := (hcsiff n).mpr ⟨hn, hmd⟩
              exact List.mem_append.mpr (Or.inr ((hnewly n).mpr ⟨hc, hall⟩))
            · have hall' : ∀ b ∈ deps n, b ∈ done := by
                intro b hb
                rcases List.mem_append.mp (hall b hb) with h | h
                · exact h
                · exact absurd ((List.mem_singleton.mp h) ▸ hb) hmd
              have := (inv.qIff n hn hnd.1).mpr hall'
              rcases List.mem_cons.mp this with h | h
              · exact absurd h hnd.2
              · exact List.mem_append.mpr (Or.inl h)
      have hlen' : ids.length ≤ fuel + (done ++ [m]).length := by
        simp only [List.length_append, List.length_singleton]
        omega
      obtain ⟨c1, c2, c3, c4⟩ := ih (done ++ [m]) _ _ ch inv' hlen'
      rw [hloop]
      have hA : done ++ m :: kahnLoop ch fuel (cs.foldl kahnStep (ind, rest)).1
            (rest ++ cs.filter (fun c => (omapGet ind c).getD 0 - 1 = 0)) =
          (done ++ [m]) ++ kahnLoop ch fuel (cs.foldl kahnStep (ind, rest)).1
            (rest ++ cs.filter (fun c => (omapGet ind c).getD 0 - 1 = 0)) := by
        simp
      refine ⟨by rw [hA]; exact c1, ?_, by rw [hA]; exact c3, ?_⟩
      · intro n hn
        rcases List.mem_cons.mp hn with rfl | hn
        · exact ⟨hmids, hmdone⟩
        · obtain ⟨h1, h2⟩ := c2 n hn
          simp only [List.mem_append, List.mem_singleton, not_or] at h2
          exact ⟨h1, h2.1⟩
      · intro rank hrank n hn
        have := c4 rank hrank n hn
        rw [hA]
        exact this

/-! Characterizations of the children-map accumulation folds. -/

theorem osetAdd_idem (v : List String) (n : String) :
    osetAdd (osetAdd v n) n = osetAdd v n := by
  unfold osetAdd
  have hmem : n ∈ (if v.contains n = true then v else v ++ [n]) := by
    split
    · rename_i h
      exact contains_iff_mem.mp h
    · simp
  rw [if_pos (contains_iff_mem.mpr hmem)]

theorem inner_add_get (ds : List String) (ch : OMap (List String)) (n p : String)
    (v : List String) (hv : omapGet ch p = some v) :
    omapGet (ds.foldl (fun ch parent =>
        match omapGet ch parent with
        | some s => omapSet ch parent (osetAdd s n)
        | none => ch) ch) p = some (if p ∈ ds then osetAdd v n else v) := by
  induction ds generalizing ch v with
  | nil => simpa using hv
  | cons d ds ih =>
    rw [List.foldl_cons]
    by_cases hdp : d = p
    · subst hdp
      rw [hv]
      have := ih (omapSet ch d (osetAdd v n)) (osetAdd v n) (omapGet_omapSet_self ..)
      rw [this]
      by_cases hds : d ∈ ds <;> simp [hds, osetAdd_idem]
    · have hg : omapGet (match omapGet ch d with
          | some s => omapSet ch d (osetAdd s n)
          | none => ch) p = some v := by
        cases hgd : omapGet ch d with
        | none => simpa using hv
        | some s =>
          simpa [omapGet_omapSet_ne _ _ (fun hh : p = d => hdp hh.symm)] using hv
      rw [ih _ _ hg]
      by_cases hds : p ∈ ds
      · rw [if_pos hds, if_pos (List.mem_cons_of_mem d hds)]
      · rw [if_neg hds, if_neg (by
          intro hc
          rcases List.mem_cons.mp hc with h | h
          · exact hdp h.symm
          · exact hds h)]

theorem inner_add_get_none (ds : List String) (ch : OMap (List String)) (n p : String)
    (hv : omapGet ch p = none) :
    omapGet (ds.foldl (fun ch parent =>
        match omapGet ch parent with
        | some s => omapSet ch parent (osetAdd s n)
        | none => ch) ch) p = none := by
  induction ds generalizing ch with
  | nil => simpa using hv
  | cons d ds ih =>
    rw [List.foldl_cons]
    apply ih
    by_cases hdp : d = p
    · subst hdp
      rw [hv]
      exact hv
    · cases hgd : omapGet ch d with
      | none => simpa using hv
      | some s =>
        simpa [omapGet_omapSet_ne _ _ (fun hh : p = d => hdp hh.symm)] using hv

theorem children_fold_get (E : List (String × List String)) (ch : OMap (List String))
    (p : String) (v : List String) (hv : omapGet ch p = some v)
    (hnd : (E.map Prod.fst).Nodup) (hdisj : ∀ e ∈ E, e.1 ∉ v) :
    omapGet (E.foldl (fun ch e =>
        e.2.foldl (fun ch parent =>
          match omapGet ch parent with
          | some s => omapSet ch parent (osetAdd s e.1)
          | none => ch) ch) ch) p =
      some (v ++ (E.filter (fun e => p ∈ e.2)).map Prod.fst) := by
  induction E generalizing ch v with
  | nil => simpa using hv
  | cons e E ih =>
    simp only [List.map_cons, List.nodup_cons] at hnd
    rw [List.foldl_cons]
    have hstep := inner_add_get e.2 ch e.1 p v hv
    by_cases hp : p ∈ e.2
    · rw [if_pos hp] at hstep
      have hadd : osetAdd v e.1 = v ++ [e.1] := by
        unfold osetAdd
        rw [if_neg]
        intro hc
        exact hdisj e (List.mem_cons_self e E) (contains_iff_mem.mp hc)
      rw [hadd] at hstep
      have hdisj' : ∀ e' ∈ E, e'.1 ∉ v ++ [e.1] := by
        intro e' he'
        simp only [List.mem_append, List.mem_singleton, not_or]
        refine ⟨hdisj e' (List.mem_cons_of_mem e he'), ?_⟩
        intro hh
        exact hnd.1 (hh ▸ List.mem_map.mpr ⟨e', he', rfl⟩)
      rw [ih _ _ hstep hnd.2 hdisj', List.filter_cons_of_pos (by simpa using hp)]
      simp
    · rw [if_neg hp] at hstep
      rw [ih _ _ hstep hnd.2 (fun e' he' => hdisj e' (List.mem_cons_of_mem e he')),
        List.filter_cons_of_neg (by simpa using hp)]

theorem children_fold_get_none (E : List (String × List String)) (ch : OMap (List String))
    (p : String) (hv : omapGet ch p = none) :
    omapGet (E.foldl (fun ch e =>
        e.2.foldl (fun ch parent =>
          match omapGet ch parent with
          | some s => omapSet ch parent (osetAdd s e.1)
          | none => ch) ch) ch) p = none := by
  induction E generalizing ch with
  | nil => simpa using hv
  | cons e E ih =>
    rw [List.foldl_cons]
    exact ih _ (inner_add_get_none e.2 ch e.1 p hv)

/-! Instantiation of the invariant for the table-level sort. -/

theorem exists_mem_cons_split {α : Type} {a : α} {l : List α} {p : α → Prop} :
    (∃ x ∈ a :: l, p x) ↔ p a ∨ ∃ x ∈ l, p x := by
  constructor
  · rintro ⟨x, hx, hp⟩
    rcases List.mem_cons.mp hx with rfl | hx
    · exact Or.inl hp
    · exact Or.inr ⟨x, hx, hp⟩
  · rintro (hp | ⟨x, hx, hp⟩)
    · exact ⟨a, List.mem_cons_self a l, hp⟩
    · exact ⟨x, List.mem_cons_of_mem a hx, hp⟩

theorem find?_model_eq {models : List DmmfModel}
    (hn : (models.map (fun m => m.name)).Nodup) {mo : DmmfModel} (h : mo ∈ models) :
    models.find? (fun m => m.name == mo.name) = some mo := by
  induction models with
  | nil => simp at h
  | cons m ms ih =>
    simp only [List.map_cons, List.nodup_cons] at hn
    rcases List.mem_cons.mp h with rfl | h
    · rw [List.find?_cons_of_pos _ (by simp)]
    · have hne : m.name ≠ mo.name := fun hh => hn.1 (hh ▸ List.mem_map.mpr ⟨mo, h, rfl⟩)
      rw [List.find?_cons_of_neg _ (by simp [hne]), ih hn.2 h]

theorem depsOfModel_eq {models : List DmmfModel}
    (hn : (models.map (fun m => m.name)).Nodup) {mo : DmmfModel} (h : mo ∈ models) :
    depsOfModel models mo.name = modelDeps (models.map (fun m => m.name)) mo := by
  unfold depsOfModel
  rw [find?_model_eq hn h]

theorem depsOfModel_not_mem {models : List DmmfModel} {n : String}
    (h : n ∉ models.map (fun m => m.name)) : depsOfModel models n = [] := by
  unfold depsOfModel
  cases hf : models.find? (fun m => m.name == n) with
  | none => rfl
  | some mo =>
    exfalso
    have hp := List.find?_some hf
    have hmem := List.mem_of_find?_eq_some hf
    simp only [beq_iff_eq] at hp
    exact h (hp ▸ List.mem_map.mpr ⟨mo, hmem, rfl⟩)

theorem mem_modelDeps_go (modelNames : List String) (model : DmmfModel)
    (fields : List Field) (acc : List String) (b : String) :
    (b ∈ fields.foldl (fun d f =>
      if f.kind ≠ FieldKind.object then d
      else if (f.relationFromFields.getD []).length = 0 then d
      else if !(modelNames.contains f.type) then d
      else if f.type ≠ model.name then osetAdd d f.type
      else d) acc) ↔
    b ∈ acc ∨ ∃ f ∈ fields, f.kind = FieldKind.object ∧
      (f.relationFromFields.getD []) ≠ [] ∧ f.type ∈ modelNames ∧
      f.type ≠ model.name ∧ f.type = b := by
  induction fields generalizing acc with
  | nil => simp
  | cons f fs ih =>
    rw [List.foldl_cons, exists_mem_cons_split]
    by_cases h1 : f.kind = FieldKind.object
    case neg =>
      rw [if_pos h1, ih]
      have hnp : ¬(f.kind = FieldKind.object ∧ (f.relationFromFields.getD []) ≠ [] ∧
          f.type ∈ modelNames ∧ f.type ≠ model.name ∧ f.type = b) := by
        rintro ⟨hk, -⟩
        exact h1 hk
      rw [or_iff_right hnp]
    case pos =>
    rw [if_neg (by simpa using h1)]
    by_cases h2 : (f.relationFromFields.getD []).length = 0
    case pos =>
      rw [if_pos h2, ih]
      have hnp : ¬(f.kind = FieldKind.object ∧ (f.relationFromFields.getD []) ≠ [] ∧
          f.type ∈ modelNames ∧ f.type ≠ model.name ∧ f.type = b) := by
        rintro ⟨-, hk, -⟩
        exact hk (List.length_eq_zero.mp h2)
      rw [or_iff_right hnp]
    case neg =>
    rw [if_neg h2]
    by_cases h3 : f.type ∈ modelNames
    case neg =>
      rw [if_pos (by simp [contains_iff_mem, h3]), ih]
      have hnp : ¬(f.kind = FieldKind.object ∧ (f.relationFromFields.getD []) ≠ [] ∧
          f.type ∈ modelNames ∧ f.type ≠ model.name ∧ f.type = b) := by
        rintro ⟨-, -, hk, -⟩
        exact h3 hk
      rw [or_iff_right hnp]
    case pos =>
    rw [if_neg (by simp [contains_iff_mem, h3])]
    by_cases h4 : f.type = model.name
    case pos =>
      rw [if_neg (by simpa using h4), ih]
      have hnp : ¬(f.kind = FieldKind.object ∧ (f.relationFromFields.getD []) ≠ [] ∧
          f.type ∈ modelNames ∧ f.type ≠ model.name ∧ f.type = b) := by
        rintro ⟨-, -, -, hk, -⟩
        exact hk h4
      rw [or_iff_right hnp]
    case neg =>
    rw [if_pos h4, ih]
    constructor
    · rintro (hb | hrest)
      · rcases mem_osetAdd.mp hb with hb | hb
        · exact Or.inl hb
        · exact Or.inr (Or.inl ⟨h1, fun hh => h2 (by simp [hh]), h3, h4, hb.symm⟩)
      · exact Or.inr (Or.inr hrest)
    · rintro (hb | ⟨-, -, -, -, heq⟩ | hrest)
      · exact Or.inl (mem_osetAdd.mpr (Or.inl hb))
      · exact Or.inl (mem_osetAdd.mpr (Or.inr heq.symm))
      · exact Or.inr hrest

theorem mem_modelDeps {modelNames : List String} {model : DmmfModel} {b : String} :
    b ∈ modelDeps modelNames model ↔
      ∃ f ∈ model.fields, f.kind = FieldKind.object ∧
        (f.relationFromFields.getD []) ≠ [] ∧ f.type ∈ modelNames ∧
        f.type ≠ model.name ∧ f.type = b := by
  unfold modelDeps
  rw [mem_modelDeps_go]
  simp

theorem modelDeps_nodup_go (modelNames : List String) (model : DmmfModel)
    (fields : List Field) (acc : List String) (h : acc.Nodup) :
    (fields.foldl (fun d f =>
      if f.kind ≠ FieldKind.object then d
      else if (f.relationFromFields.getD []).length = 0 then d
      else if !(modelNames.contains f.type) then d
      else if f.type ≠ model.name then osetAdd d f.type
      else d) acc).Nodup := by
  induction fields generalizing acc with
  | nil => exact h
  | cons f fs ih =>
    rw [List.foldl_cons]
    apply ih
    repeat' split
    all_goals first
      | exact h
      | exact nodup_osetAdd _ h

theorem modelDeps_nodup (modelNames : List String) (model : DmmfModel) :
    (modelDeps modelNames model).Nodup :=
  modelDeps_nodup_go modelNames model model.fields [] List.nodup_nil

theorem graph_eq (models : List DmmfModel) (hn : (models.map (fun m => m.name)).Nodup) :
    getDependencyGraph models =
      models.map (fun mo => (mo.name, modelDeps (models.map (fun m => m.name)) mo)) := by
  unfold getDependencyGraph
  have := foldl_set_eq_append models (fun m => m.name)
    (fun mo => modelDeps (models.map (fun m => m.name)) mo) [] hn (by simp [omapKeys])
  simpa using this

theorem modelDegChildren_split (models : List DmmfModel) :
    modelDegChildren models =
      ((getDependencyGraph models).foldl
        (fun ind e => omapSet ind e.1 (e.2.length : Int))
        (models.foldl (fun m mo => omapSet m mo.name 0) []),
       (getDependencyGraph models).foldl
        (fun ch e => e.2.foldl (fun ch parent =>
          match omapGet ch parent with
          | some s => omapSet ch parent (osetAdd s e.1)
          | none => ch) ch)
        (models.foldl (fun m mo => omapSet m mo.name []) [])) := by
  simp only [modelDegChildren]
  exact foldl_pair_split (getDependencyGraph models)
    (fun ind e => omapSet ind e.1 (e.2.length : Int))
    (fun ch e => e.2.foldl (fun ch parent =>
      match omapGet ch parent with
      | some s => omapSet ch parent (osetAdd s e.1)
      | none => ch) ch)
    (models.foldl (fun m mo => omapSet m mo.name 0) [])
    (models.foldl (fun m mo => omapSet m mo.name []) [])

theorem modelInit_get_of_mem {α : Type} (models : List DmmfModel) (v : α)
    (hn : (models.map (fun m => m.name)).Nodup) {mo : DmmfModel} (h : mo ∈ models) :
    omapGet (models.foldl (fun m mo => omapSet m mo.name v) []) mo.name = some v :=
  foldl_set_get_of_mem models (fun m => m.name) (fun _ => v) [] hn h

theorem modelInit_get_of_not_mem {α : Type} (models : List DmmfModel) (v : α)
    {n : String} (h : n ∉ models.map (fun m => m.name)) :
    omapGet (models.foldl (fun m mo => omapSet m mo.name v) []) n = none := by
  rw [foldl_set_get_of_not_mem models (fun m => m.name) (fun _ => v) [] h]
  rfl

theorem modelInit_keys {α : Type} (models : List DmmfModel) (v : α)
    (hn : (models.map (fun m => m.name)).Nodup) :
    omapKeys (models.foldl (fun m mo => omapSet m mo.name v) []) =
      models.map (fun m => m.name) := by
  rw [foldl_set_eq_append models (fun m => m.name) (fun _ => v) [] hn (by simp [omapKeys])]
  simp [omapKeys]

theorem modelInd_get_of_mem (models : List DmmfModel)
    (hn : (models.map (fun m => m.name)).Nodup) {mo : DmmfModel} (h : mo ∈ models) :
    omapGet (modelDegChildren models).1 mo.name =
      some ((modelDeps (models.map (fun m => m.name)) mo).length : Int) := by
  rw [modelDegChildren_split, graph_eq models hn, List.foldl_map]
  exact foldl_set_get_of_mem models (fun m => m.name)
    (fun mo => ((modelDeps (models.map (fun m => m.name)) mo).length : Int)) _ hn h

theorem modelInd_get_of_not_mem (models : List DmmfModel)
    (hn : (models.map (fun m => m.name)).Nodup) {n : String}
    (h : n ∉ models.map (fun m => m.name)) :
    omapGet (modelDegChildren models).1 n = none := by
  rw [modelDegChildren_split, graph_eq models hn, List.foldl_map,
    foldl_set_get_of_not_mem models (fun m => m.name)
      (fun mo => ((modelDeps (models.map (fun m => m.name)) mo).length : Int)) _ h]
  exact modelInit_get_of_not_mem models 0 h

theorem modelInd_keys (models : List DmmfModel)
    (hn : (models.map (fun m => m.name)).Nodup) :
    omapKeys (modelDegChildren models).1 = models.map (fun m => m.name) := by
  rw [modelDegChildren_split, graph_eq models hn, List.foldl_map]
  rw [omapKeys_foldl_set models (fun m => m.name)
    (fun mo => ((modelDeps (models.map (fun m => m.name)) mo).length : Int)) _ ?_]
  · exact modelInit_keys models 0 hn
  · intro mo hmo
    rw [modelInit_keys models 0 hn]
    exact List.mem_map.mpr ⟨mo, hmo, rfl⟩

theorem modelDegChildren_snd (models : List DmmfModel) :
    (modelDegChildren models).2 =
      (getDependencyGraph models).foldl
        (fun ch e => e.2.foldl (fun ch parent =>
          match omapGet ch parent with
          | some s => omapSet ch parent (osetAdd s e.1)
          | none => ch) ch)
        (models.foldl (fun m mo => omapSet m mo.name []) []) := by
  rw [modelDegChildren_split]

theorem modelCh_get_of_mem (models : List DmmfModel)
    (hn : (models.map (fun m => m.name)).Nodup) {p : String}
    (h : p ∈ models.map (fun m => m.name)) :
    omapGet (modelDegChildren models).2 p =
      some ((models.filter
        (fun mo => p ∈ modelDeps (models.map (fun m => m.name)) mo)).map
          (fun mo => mo.name)) := by
  rw [modelDegChildren_snd, graph_eq models hn]
  obtain ⟨mo, hmo, rfl⟩ := List.mem_map.mp h
  have hget0 : omapGet (models.foldl (fun m mo => omapSet m mo.name []) []) mo.name =
      some ([] : List String) := modelInit_get_of_mem models [] hn hmo
  rw [children_fold_get
      (models.map (fun mo => (mo.name, modelDeps (models.map (fun m => m.name)) mo)))
      _ mo.name [] hget0 (by simpa [List.map_map, Function.comp] using hn) (by simp)]
  rw [List.filter_map, List.map_map]
  simp [Function.comp_def]

theorem subset_of_nodup_length {l₁ l₂ : List String} (h1 : l₁.Nodup) (hs : l₁ ⊆ l₂)
    (hl : l₂.length ≤ l₁.length) : ∀ x ∈ l₂, x ∈ l₁ := by
  intro x hx
  by_contra hnx
  have hsub : (l₁ ++ [x]).Nodup := by simp [List.nodup_append, h1, hnx]
  have hss : l₁ ++ [x] ⊆ l₂ := by
    intro y hy
    rcases List.mem_append.mp hy with hy | hy
    · exact hs hy
    · exact (List.mem_singleton.mp hy) ▸ hx
  have hlen := (List.subperm_of_subset hsub hss).length_le
  simp at hlen
  omega

theorem models_initial_inv (models : List DmmfModel)
    (hn : (models.map (fun m => m.name)).Nodup) :
    KahnInv (models.map (fun m => m.name)) (depsOfModel models) []
      (initQueue (modelDegChildren models).1) (modelDegChildren models).1
      (modelDegChildren models).2 := by
  have hkeys := modelInd_keys models hn
  have hq : initQueue (modelDegChildren models).1 =
      (models.map (fun m => m.name)).filter
        (fun k => omapGet (modelDegChildren models).1 k = some 0) := by
    rw [initQueue_eq_filter_keys _ (hkeys ▸ hn), hkeys]
  refine ⟨hn, ?_, ?_, ?_, ?_, List.nodup_nil, by simp, goodorder_nil _, ?_, ?_, ?_⟩
  · -- depsNd
    intro n hmem
    obtain ⟨mo, hmo, rfl⟩ := List.mem_map.mp hmem
    rw [depsOfModel_eq hn hmo]
    exact modelDeps_nodup _ mo
  · -- depsSub
    intro n hmem b hb
    obtain ⟨mo, hmo, rfl⟩ := List.mem_map.mp hmem
    rw [depsOfModel_eq hn hmo] at hb
    obtain ⟨f, -, -, -, hty, -, rfl⟩ := mem_modelDeps.mp hb
    exact hty
  · -- chSpec
    intro p hp
    refine ⟨(models.filter
      (fun mo => p ∈ modelDeps (models.map (fun m => m.name)) mo)).map (fun mo => mo.name),
      modelCh_get_of_mem models hn hp, ?_, ?_⟩
    · exact hn.sublist (List.Sublist.map _ (List.filter_sublist models))
    · intro c
      constructor
      · intro hc
        obtain ⟨mo, hmo, rfl⟩ := List.mem_map.mp hc
        have hmo' := List.mem_filter.mp hmo
        refine ⟨List.mem_map.mpr ⟨mo, hmo'.1, rfl⟩, ?_⟩
        rw [depsOfModel_eq hn hmo'.1]
        simpa using hmo'.2
      · rintro ⟨hc, hdep⟩
        obtain ⟨mo, hmo, rfl⟩ := List.mem_map.mp hc
        rw [depsOfModel_eq hn hmo] at hdep
        exact List.mem_map.mpr ⟨mo, List.mem_filter.mpr ⟨hmo, by simpa using hdep⟩, rfl⟩
  · -- indSpecMem
    intro n hmem
    obtain ⟨mo, hmo, rfl⟩ := List.mem_map.mp hmem
    rw [modelInd_get_of_mem models hn hmo, depsOfModel_eq hn hmo]
    have : ((depsOfModel models mo.name).filter
        (fun b => b ∈ ([] : List String))).length = 0 := by
      simp
    rw [depsOfModel_eq hn hmo] at this
    rw [this]
    simp
  · -- qNd
    rw [hq]
    exact hn.filter _
  · -- qSub
    intro q hqm
    rw [hq] at hqm
    exact ⟨(List.mem_filter.mp hqm).1, by simp⟩
  · -- qIff
    intro n hmem hnd
    rw [hq, List.mem_filter]
    obtain ⟨mo, hmo, rfl⟩ := List.mem_map.mp hmem
    rw [modelInd_get_of_mem models hn hmo]
    constructor
    · rintro ⟨-, hz⟩
      simp only [Option.some.injEq, decide_eq_true_eq] at hz
      have hlen : (modelDeps (models.map (fun m => m.name)) mo).length = 0 := by
        exact_mod_cast hz
      intro b hb
      rw [depsOfModel_eq hn hmo, List.length_eq_zero.mp hlen] at hb
      simp at hb
    · intro hall
      refine ⟨hmem, ?_⟩
      have : depsOfModel models mo.name = [] := by
        rcases hd : depsOfModel models mo.name with _ | ⟨b, bs⟩
        · rfl
        · exfalso
          have := hall b (by rw [hd]; exact List.mem_cons_self b bs)
          simp at this
      rw [depsOfModel_eq hn hmo] at this
      simp [this]

theorem modelKahnOrder_spec (models : List DmmfModel)
    (hn : (models.map (fun m => m.name)).Nodup) :
    (modelKahnOrder models).Nodup ∧
    (∀ n ∈ modelKahnOrder models, n ∈ models.map (fun m => m.name)) ∧
    GoodOrder (depsOfModel models) (modelKahnOrder models) ∧
    (∀ rank : String → Nat,
      (∀ n ∈ models.map (fun m => m.name), ∀ b ∈ depsOfModel models n, rank b < rank n) →
      ∀ n ∈ models.map (fun m => m.name), n ∈ modelKahnOrder models) := by
  have hmaster := kahn_master (models.map (fun m => m.name)) (depsOfModel models)
    models.length [] (initQueue (modelDegChildren models).1) (modelDegChildren models).1
    (modelDegChildren models).2 (models_initial_inv models hn) (by simp)
  obtain ⟨c1, c2, c3, c4⟩ := hmaster
  have heq : modelKahnOrder models = kahnLoop (modelDegChildren models).2 models.length
      (modelDegChildren models).1 (initQueue (modelDegChildren models).1) := rfl
  rw [heq]
  refine ⟨by simpa using c1, fun n hn' => (c2 n hn').1, by simpa using c3, ?_⟩
  intro rank hr n hn'
  simpa using c4 rank hr n hn'

theorem modelKahnOrder_complete_len (models : List DmmfModel)
    (hn : (models.map (fun m => m.name)).Nodup)
    (hcomp : ∀ n ∈ models.map (fun m => m.name), n ∈ modelKahnOrder models) :
    (modelKahnOrder models).length = models.length := by
  obtain ⟨hnd, hsub, -, -⟩ := modelKahnOrder_spec models hn
  have h1 := (List.subperm_of_subset hnd hsub).length_le
  have h2 := (List.subperm_of_subset hn (fun x hx => hcomp x hx)).length_le
  simp only [List.length_map] at h1 h2
  omega

theorem topoSortModels_eq_append (models : List DmmfModel)
    (hn : (models.map (fun m => m.name)).Nodup) :
    topoSortModels models = modelKahnOrder models ++
      (models.map (fun m => m.name)).filter
        (fun n => !((modelKahnOrder models).contains n)) := by
  simp only [topoSortModels]
  split
  · rfl
  · rename_i hlen
    simp only [ne_eq, not_not] at hlen
    obtain ⟨hnd, hsub, -, -⟩ := modelKahnOrder_spec models hn
    have hall := subset_of_nodup_length hnd (fun x hx => hsub x hx)
      (by simp only [List.length_map]; omega)
    have hfil : (models.map (fun m => m.name)).filter
        (fun n => !((modelKahnOrder models).contains n)) = [] := by
      rw [List.filter_eq_nil_iff]
      intro a ha
      simp only [Bool.not_eq_true', Bool.not_eq_false]
      exact contains_iff_mem.mpr (hall a ha)
    rw [hfil, List.append_nil]

theorem topoSortModels_perm (models : List DmmfModel)
    (hn : (models.map (fun m => m.name)).Nodup) :
    List.Perm (topoSortModels models) (models.map (fun m => m.name)) := by
  obtain ⟨hnd, hsub, -, -⟩ := modelKahnOrder_spec models hn
  rw [topoSortModels_eq_append models hn]
  have hout : (modelKahnOrder models ++
      (models.map (fun m => m.name)).filter
        (fun n => !((modelKahnOrder models).contains n))).Nodup := by
    rw [List.nodup_append]
    refine ⟨hnd, hn.filter _, ?_⟩
    intro a ha hafil
    have := (List.mem_filter.mp hafil).2
    simp only [Bool.not_eq_true'] at this
    exact (by simpa [contains_iff_mem] using this : a ∉ modelKahnOrder models) ha
  refine (List.perm_ext_iff_of_nodup hout hn).mpr ?_
  intro a
  simp only [List.mem_append, List.mem_filter, Bool.not_eq_true']
  constructor
  · rintro (ha | ⟨ha, -⟩)
    · exact hsub a ha
    · exact ha
  · intro ha
    by_cases hin : a ∈ modelKahnOrder models
    · exact Or.inl hin
    · refine Or.inr ⟨ha, ?_⟩
      simp [contains_iff_mem, hin]

theorem graph_get_of_mem {models : List DmmfModel}
    (hn : (models.map (fun m => m.name)).Nodup) {mo : DmmfModel} (hmo : mo ∈ models) :
    omapGet (getDependencyGraph models) mo.name =
      some (modelDeps (models.map (fun m => m.name)) mo) := by
  rw [graph_eq models hn]
  apply omapGet_of_mem_nodup
  · simpa [omapKeys, List.map_map, Function.comp_def] using hn
  · exact List.mem_map.mpr ⟨mo, hmo, rfl⟩

/-! Claim theorems for the table-level sort. -/

/-- C1: for every catalog with distinct table names whose dependency graph is
acyclic (witnessed by a rank function decreasing along dependency edges), the
order produced by `topoSortModels` places every dependency strictly before
each table that depends on it; and the scenario catalog `[Post, User, Role]`
with `Post` depending on `User` resolves to `[User, Role, Post]`, which ends
with `Post`. -/
theorem c1_topo_order_deps_first :
    (∀ models : List DmmfModel, (models.map (fun m => m.name)).Nodup →
      (∃ rank : String → Nat, ∀ mo ∈ models,
        ∀ b ∈ (omapGet (getDependencyGraph models) mo.name).getD [],
          rank b < rank mo.name) →
      ∀ mo ∈ models, ∀ b ∈ (omapGet (getDependencyGraph models) mo.name).getD [],
        (topoSortModels models).indexOf b < (topoSortModels models).indexOf mo.name) ∧
    topoSortModels catalogPUR = ["User", "Role", "Post"] := by
  constructor
  · intro models hn hac mo hmo b hb
    obtain ⟨rank, hrank⟩ := hac
    have hrank' : ∀ n ∈ models.map (fun m => m.name),
        ∀ b ∈ depsOfModel models n, rank b < rank n := by
      intro n hnm b' hb'
      obtain ⟨mo', hmo', rfl⟩ := List.mem_map.mp hnm
      rw [depsOfModel_eq hn hmo'] at hb'
      have := hrank mo' hmo' b'
      rw [graph_get_of_mem hn hmo'] at this
      exact this (by simpa using hb')
    obtain ⟨hnd, hsub, hgood, hcompl⟩ := modelKahnOrder_spec models hn
    have hcomp := hcompl rank hrank'
    have hlen := modelKahnOrder_complete_len models hn hcomp
    have htopo : topoSortModels models = modelKahnOrder models := by
      simp only [topoSortModels]
      rw [if_neg (by simp [hlen])]
    rw [graph_get_of_mem hn hmo] at hb
    simp only [Option.getD_some] at hb
    have hbdep : b ∈ depsOfModel models mo.name := by
      rw [depsOfModel_eq hn hmo]
      exact hb
    have hmoin : mo.name ∈ modelKahnOrder models :=
      hcomp mo.name (List.mem_map.mpr ⟨mo, hmo, rfl⟩)
    obtain ⟨p, s, hps⟩ := List.append_of_mem hmoin
    have hbp : b ∈ p := hgood p mo.name s hps b hbdep
    have hmop : mo.name ∉ p := by
      have := hps ▸ hnd
      rcases List.nodup_append.mp this with ⟨-, -, hdisj⟩
      intro hmem
      exact hdisj hmem (List.mem_cons_self _ _)
    rw [htopo, hps, List.indexOf_append_of_mem hbp, List.indexOf_append_of_not_mem hmop,
      List.indexOf_cons_self]
    have := List.indexOf_lt_length.mpr hbp
    omega
  · decide

/-- Witness for C1: in the scenario catalog, `User` is placed strictly
before `Post`, through the general theorem. -/
theorem c1_topo_order_deps_first_witness :
    (topoSortModels catalogPUR).indexOf "User" < (topoSortModels catalogPUR).indexOf "Post" :=
  c1_topo_order_deps_first.1 catalogPUR (by decide)
    ⟨fun n => if n = "Post" then 1 else 0, by decide⟩
    postModel (by decide) "User" (by decide)

/-- C2: for every catalog with distinct table names, cyclic or not, the
output of `topoSortModels` is a permutation of the table names, and equals
the Kahn order followed by exactly the remaining (cycle-bound) tables in
their original catalog order; for the two-table cyclic catalog the fallback
returns both tables in catalog order. -/
theorem c2_topo_permutation :
    (∀ models : List DmmfModel, (models.map (fun m => m.name)).Nodup →
      List.Perm (topoSortModels models) (models.map (fun m => m.name)) ∧
      topoSortModels models = modelKahnOrder models ++
        (models.map (fun m => m.name)).filter
          (fun n => !((modelKahnOrder models).contains n))) ∧
    topoSortModels catalogCycle = ["A", "B"] := by
  constructor
  · intro models hn
    exact ⟨topoSortModels_perm models hn, topoSortModels_eq_append models hn⟩
  · decide

/-- Witness for C2: the cyclic two-table catalog, where the Kahn order is
empty and both tables are appended in catalog order. -/
theorem c2_topo_permutation_witness :
    List.Perm (topoSortModels catalogCycle) (catalogCycle.map (fun m => m.name)) ∧
    topoSortModels catalogCycle = modelKahnOrder catalogCycle ++
      (catalogCycle.map (fun m => m.name)).filter
        (fun n => !((modelKahnOrder catalogCycle).contains n)) :=
  c2_topo_permutation.1 catalogCycle (by decide)

/-- C7: for every catalog with distinct table names, table `b` is recorded as
a dependency of table `mo` exactly when `mo` has a relation-kind field with a
non-empty own-FK column list whose related type is `b`, `b` is a known table
of the catalog, and `b` is not `mo` itself. (The builder is a total function:
no input raises an error.) -/
theorem c7_dependency_graph_edges :
    ∀ models : List DmmfModel, (models.map (fun m => m.name)).Nodup →
    ∀ mo ∈ models, ∀ b : String,
      (b ∈ (omapGet (getDependencyGraph models) mo.name).getD []) ↔
        (b ≠ mo.name ∧ b ∈ models.map (fun m => m.name) ∧
          ∃ f ∈ mo.fields, f.kind = FieldKind.object ∧
            (f.relationFromFields.getD []) ≠ [] ∧ f.type = b) := by
  intro models hn mo hmo b
  rw [graph_get_of_mem hn hmo]
  simp only [Option.getD_some]
  rw [mem_modelDeps]
  constructor
  · rintro ⟨f, hf, hkind, hff, hty, hne, rfl⟩
    exact ⟨hne, hty, f, hf, hkind, hff, rfl⟩
  · rintro ⟨hbne, hbmem, f, hf, hkind, hff, hty⟩
    exact ⟨f, hf, hkind, hff, hty ▸ hbmem, hty ▸ hbne, hty⟩

/-- Witness for C7: in the scenario catalog, `User` is an edge of `Post`
(a relation field with own FK columns) through the general theorem. -/
theorem c7_dependency_graph_edges_witness :
    ("User" ∈ (omapGet (getDependencyGraph catalogPUR) postModel.name).getD []) ↔
      ("User" ≠ postModel.name ∧ "User" ∈ catalogPUR.map (fun m => m.name) ∧
        ∃ f ∈ postModel.fields, f.kind = FieldKind.object ∧
          (f.relationFromFields.getD []) ≠ [] ∧ f.type = "User") :=
  c7_dependency_graph_edges catalogPUR (by decide) postModel (by decide) "User"

/-! Instantiation of the invariant for the row-level sort. -/

theorem selfInDegChildren_split (rows : List Row) :
    selfInDegChildren rows =
      (rows.foldl (selfIndStep rows) (rows.foldl (fun m r => omapSet m r.id 0) []),
       rows.foldl (selfChStep rows) (rows.foldl (fun m r => omapSet m r.id []) [])) := by
  simp only [selfInDegChildren]
  have hstep : (fun (p : OMap Int × OMap (List String)) (r : Row) =>
      match rowTruthyParent r with
      | none => p
      | some pid =>
        if (rows.map (fun x => x.id)).contains pid then
          (omapSet p.1 r.id ((omapGet p.1 r.id).getD 0 + 1),
           match omapGet p.2 pid with
           | some s => omapSet p.2 pid (osetAdd s r.id)
           | none => p.2)
        else p) =
      (fun p r => (selfIndStep rows p.1 r, selfChStep rows p.2 r)) := by
    funext p r
    rcases htr : rowTruthyParent r with _ | pid
    · simp [selfIndStep, selfChStep, htr]
    · simp only [selfIndStep, selfChStep, htr]
      by_cases hc : (rows.map (fun x => x.id)).contains pid = true
      · rw [if_pos hc, if_pos hc, if_pos hc]
      · rw [if_neg hc, if_neg hc, if_neg hc]
  rw [hstep]
  exact foldl_pair_split rows (selfIndStep rows) (selfChStep rows) _ _

theorem selfIndFold_get (rows l : List Row) (m : OMap Int) (x : String) (v : Int)
    (hm : omapGet m x = some v) :
    omapGet (l.foldl (selfIndStep rows) m) x =
      some (v + (((l.filter (fun r => r.id = x && selfHasDep rows r)).length : Int))) := by
  induction l generalizing m v with
  | nil => simpa using hm
  | cons r l ih =>
    rw [List.foldl_cons]
    rcases htr : rowTruthyParent r with _ | pid
    · have hsd : selfHasDep rows r = false := by
        unfold selfHasDep
        rw [htr]
      have hstep : selfIndStep rows m r = m := by
        unfold selfIndStep
        rw [htr]
      rw [hstep, List.filter_cons_of_neg (by simp [hsd]), ih m v hm]
    · by_cases hc : (rows.map (fun y => y.id)).contains pid = true
      · have hsd : selfHasDep rows r = true := by
          unfold selfHasDep
          rw [htr]
          exact hc
        have hstep : selfIndStep rows m r =
            omapSet m r.id ((omapGet m r.id).getD 0 + 1) := by
          unfold selfIndStep
          rw [htr]
          exact if_pos hc
        by_cases hrx : r.id = x
        · have hget : omapGet m r.id = some v := hrx ▸ hm
          have hget' : omapGet (omapSet m r.id ((omapGet m r.id).getD 0 + 1)) x =
              some (v + 1) := by
            rw [hget]
            simpa [hrx] using omapGet_omapSet_self m r.id (v + 1)
          rw [hstep, ih _ (v + 1) hget',
            List.filter_cons_of_pos (by simp [hrx, hsd])]
          simp only [List.length_cons, Option.some.injEq]
          push_cast
          ring_nf
        · have hget' : omapGet (omapSet m r.id ((omapGet m r.id).getD 0 + 1)) x =
              some v := by
            rw [omapGet_omapSet_ne _ _ (fun hh : x = r.id => hrx hh.symm)]
            exact hm
          rw [hstep, ih _ v hget',
            List.filter_cons_of_neg (by simp [hrx])]
      · have hsd : selfHasDep rows r = false := by
          unfold selfHasDep
          rw [htr]
          simpa using hc
        have hstep : selfIndStep rows m r = m := by
          unfold selfIndStep
          rw [htr]
          exact if_neg hc
        rw [hstep, List.filter_cons_of_neg (by simp [hsd]), ih m v hm]

theorem selfIndFold_keys (rows l : List Row) (m : OMap Int)
    (h : ∀ r ∈ l, r.id ∈ omapKeys m) :
    omapKeys (l.foldl (selfIndStep rows) m) = omapKeys m := by
  induction l generalizing m with
  | nil => rfl
  | cons r l ih =>
    rw [List.foldl_cons]
    have hkeys : omapKeys (selfIndStep rows m r) = omapKeys m := by
      rcases htr : rowTruthyParent r with _ | pid
      · have hstep : selfIndStep rows m r = m := by
          unfold selfIndStep
          rw [htr]
        rw [hstep]
      · by_cases hc : (rows.map (fun x => x.id)).contains pid = true
        · have hstep : selfIndStep rows m r =
              omapSet m r.id ((omapGet m r.id).getD 0 + 1) := by
            unfold selfIndStep
            rw [htr]
            exact if_pos hc
          rw [hstep]
          exact omapKeys_omapSet_of_mem _ (h r (List.mem_cons_self r l))
        · have hstep : selfIndStep rows m r = m := by
            unfold selfIndStep
            rw [htr]
            exact if_neg hc
          rw [hstep]
    rw [ih _ (by intro r' hr'; rw [hkeys]; exact h r' (List.mem_cons_of_mem r hr')), hkeys]

theorem selfChFold_get (rows l : List Row) (ch : OMap (List String))
    (p : String) (v : List String) (hv : omapGet ch p = some v)
    (hp : p ∈ rows.map (fun x => x.id))
    (hnd : (l.map (fun r => r.id)).Nodup)
    (hdisj : ∀ r ∈ l, r.id ∉ v) :
    omapGet (l.foldl (selfChStep rows) ch) p =
      some (v ++ (l.filter (fun r => rowTruthyParent r = some p)).map (fun r => r.id)) := by
  induction l generalizing ch v with
  | nil => simpa using hv
  | cons r l ih =>
    simp only [List.map_cons, List.nodup_cons] at hnd
    rw [List.foldl_cons]
    rcases htr : rowTruthyParent r with _ | pid
    · have hstep : selfChStep rows ch r = ch := by
        unfold selfChStep
        rw [htr]
      rw [hstep, List.filter_cons_of_neg (by simp [htr]),
        ih _ _ hv hnd.2 (fun r' hr' => hdisj r' (List.mem_cons_of_mem r hr'))]
    · by_cases hpid : pid = p
      · subst hpid
        have hstep : selfChStep rows ch r = omapSet ch pid (osetAdd v r.id) := by
          unfold selfChStep
          rw [htr]
          show (if (rows.map (fun x => x.id)).contains pid = true then
              match omapGet ch pid with
              | some s => omapSet ch pid (osetAdd s r.id)
              | none => ch
            else ch) = omapSet ch pid (osetAdd v r.id)
          rw [if_pos (contains_iff_mem.mpr hp), hv]
        have hadd : osetAdd v r.id = v ++ [r.id] := by
          unfold osetAdd
          rw [if_neg]
          intro hcon
          exact hdisj r (List.mem_cons_self r l) (contains_iff_mem.mp hcon)
        have hget' : omapGet (omapSet ch pid (osetAdd v r.id)) pid =
            some (v ++ [r.id]) := by
          rw [omapGet_omapSet_self, hadd]
        have hdisj' : ∀ r' ∈ l, r'.id ∉ v ++ [r.id] := by
          intro r' hr'
          simp only [List.mem_append, List.mem_singleton, not_or]
          exact ⟨hdisj r' (List.mem_cons_of_mem r hr'),
            fun hh => hnd.1 (hh ▸ List.mem_map.mpr ⟨r', hr', rfl⟩)⟩
        rw [hstep, ih _ _ hget' hnd.2 hdisj',
          List.filter_cons_of_pos (by simp [htr])]
        simp
      · have hgetkeep : omapGet (selfChStep rows ch r) p = some v := by
          unfold selfChStep
          rw [htr]
          show omapGet (if (rows.map (fun x => x.id)).contains pid = true then
              match omapGet ch pid with
              | some s => omapSet ch pid (osetAdd s r.id)
              | none => ch
            else ch) p = some v
          split
          · cases hgd : omapGet ch pid with
            | none => exact hv
            | some s =>
              show omapGet (omapSet ch pid (osetAdd s r.id)) p = some v
              rw [omapGet_omapSet_ne _ _ (fun hh : p = pid => hpid hh.symm)]
              exact hv
          · exact hv
        rw [ih _ _ hgetkeep hnd.2 (fun r' hr' => hdisj r' (List.mem_cons_of_mem r hr')),
          List.filter_cons_of_neg (by simp [htr, hpid])]

theorem find?_row_eq {rows : List Row}
    (hn : (rows.map (fun r => r.id)).Nodup) {r : Row} (h : r ∈ rows) :
    rows.find? (fun y => y.id == r.id) = some r := by
  induction rows with
  | nil => simp at h
  | cons y ys ih =>
    simp only [List.map_cons, List.nodup_cons] at hn
    rcases List.mem_cons.mp h with rfl | h
    · rw [List.find?_cons_of_pos _ (by simp)]
    · have hne : y.id ≠ r.id := fun hh => hn.1 (hh ▸ List.mem_map.mpr ⟨r, h, rfl⟩)
      rw [List.find?_cons_of_neg _ (by simp [hne]), ih hn.2 h]

theorem depsOfRow_eq {rows : List Row}
    (hn : (rows.map (fun r => r.id)).Nodup) {r : Row} (h : r ∈ rows) :
    depsOfRow rows r.id =
      (match rowTruthyParent r with
       | some pid => if (rows.map (fun y => y.id)).contains pid then [pid] else []
       | none => []) := by
  unfold depsOfRow
  rw [find?_row_eq hn h]

theorem depsOfRow_len {rows : List Row}
    (hn : (rows.map (fun r => r.id)).Nodup) {r : Row} (h : r ∈ rows) :
    (depsOfRow rows r.id).length = if selfHasDep rows r then 1 else 0 := by
  rw [depsOfRow_eq hn h]
  unfold selfHasDep
  rcases rowTruthyParent r with _ | pid
  · rfl
  · by_cases hc : (rows.map (fun y => y.id)).contains pid = true
    · show (if (rows.map (fun y => y.id)).contains pid = true then [pid] else []).length =
        if (rows.map (fun y => y.id)).contains pid = true then 1 else 0
      rw [if_pos hc, if_pos hc]
      rfl
    · show (if (rows.map (fun y => y.id)).contains pid = true then [pid] else []).length =
        if (rows.map (fun y => y.id)).contains pid = true then 1 else 0
      rw [if_neg hc, if_neg hc]
      rfl

theorem count_id_filter {rows : List Row}
    (hn : (rows.map (fun r => r.id)).Nodup) {r : Row} (h : r ∈ rows) :
    (rows.filter (fun y => y.id = r.id && selfHasDep rows y)).length =
      if selfHasDep rows r then 1 else 0 := by
  have key : ∀ l : List Row, (l.map (fun y => y.id)).Nodup → r ∈ l →
      (l.filter (fun y => y.id = r.id && selfHasDep rows y)).length =
        if selfHasDep rows r then 1 else 0 := by
    intro l
    induction l with
    | nil => intro _ h'; simp at h'
    | cons y ys ih =>
      intro hnl hmem
      simp only [List.map_cons, List.nodup_cons] at hnl
      rcases List.mem_cons.mp hmem with rfl | hmem
      · have htail : ys.filter (fun y' => y'.id = r.id && selfHasDep rows y') = [] := by
          rw [List.filter_eq_nil_iff]
          intro y' hy'
          have : y'.id ≠ r.id := fun hh => hnl.1 (hh ▸ List.mem_map.mpr ⟨y', hy', rfl⟩)
          simp [this]
        by_cases hs : selfHasDep rows r
        · rw [List.filter_cons_of_pos (by simp [hs]), htail]
          simp [hs]
        · rw [List.filter_cons_of_neg (by simp [hs]), htail]
          simp [hs]
      · have hyne : y.id ≠ r.id :=
          fun hh => hnl.1 (hh ▸ List.mem_map.mpr ⟨r, hmem, rfl⟩)
        rw [List.filter_cons_of_neg (by simp [hyne]), ih hnl.2 hmem]
  exact key rows hn h

theorem depsOfRow_find_none {rows : List Row} {x : String}
    (hf : rows.find? (fun r => r.id == x) = none) : depsOfRow rows x = [] := by
  unfold depsOfRow
  rw [hf]

theorem depsOfRow_find_some_truthy {rows : List Row} {x : String} {r : Row}
    (hf : rows.find? (fun r => r.id == x) = some r) {pid : String}
    (htr : rowTruthyParent r = some pid) :
    depsOfRow rows x =
      if (rows.map (fun y => y.id)).contains pid then [pid] else [] := by
  unfold depsOfRow
  rw [hf]
  show (match rowTruthyParent r with
    | some pid => if (rows.map (fun (y : Row) => y.id)).contains pid then [pid] else []
    | none => []) = _
  rw [htr]

theorem depsOfRow_find_some_falsy {rows : List Row} {x : String} {r : Row}
    (hf : rows.find? (fun r => r.id == x) = some r)
    (htr : rowTruthyParent r = none) : depsOfRow rows x = [] := by
  unfold depsOfRow
  rw [hf]
  show (match rowTruthyParent r with
    | some pid => if (rows.map (fun (y : Row) => y.id)).contains pid then [pid] else []
    | none => []) = _
  rw [htr]

theorem depsOfRow_eq_of_truthy {rows : List Row}
    (hn : (rows.map (fun r => r.id)).Nodup) {r : Row} (h : r ∈ rows) {pid : String}
    (htr : rowTruthyParent r = some pid) :
    depsOfRow rows r.id =
      if (rows.map (fun y => y.id)).contains pid then [pid] else [] :=
  depsOfRow_find_some_truthy (find?_row_eq hn h) htr

theorem depsOfRow_eq_of_falsy {rows : List Row}
    (hn : (rows.map (fun r => r.id)).Nodup) {r : Row} (h : r ∈ rows)
    (htr : rowTruthyParent r = none) : depsOfRow rows r.id = [] :=
  depsOfRow_find_some_falsy (find?_row_eq hn h) htr

theorem depsOfRow_nodup (rows : List Row) (x : String) : (depsOfRow rows x).Nodup := by
  cases hf : rows.find? (fun r => r.id == x) with
  | none =>
    rw [depsOfRow_find_none hf]
    exact List.nodup_nil
  | some r =>
    cases htr : rowTruthyParent r with
    | none =>
      rw [depsOfRow_find_some_falsy hf htr]
      exact List.nodup_nil
    | some pid =>
      rw [depsOfRow_find_some_truthy hf htr]
      split
      · exact List.nodup_singleton pid
      · exact List.nodup_nil

theorem depsOfRow_sub {rows : List Row} {x b : String} (hb : b ∈ depsOfRow rows x) :
    b ∈ rows.map (fun r => r.id) := by
  cases hf : rows.find? (fun r => r.id == x) with
  | none =>
    rw [depsOfRow_find_none hf] at hb
    simp at hb
  | some r =>
    cases htr : rowTruthyParent r with
    | none =>
      rw [depsOfRow_find_some_falsy hf htr] at hb
      simp at hb
    | some pid =>
      rw [depsOfRow_find_some_truthy hf htr] at hb
      by_cases hc : (rows.map (fun y => y.id)).contains pid = true
      · rw [if_pos hc] at hb
        rw [List.mem_singleton.mp hb]
        exact contains_iff_mem.mp hc
      · rw [if_neg hc] at hb
        simp at hb

theorem selfInd_get_of_mem (rows : List Row)
    (hn : (rows.map (fun r => r.id)).Nodup) {r : Row} (h : r ∈ rows) :
    omapGet (selfInDegChildren rows).1 r.id =
      some (((depsOfRow rows r.id).length : Int)) := by
  rw [selfInDegChildren_split]
  have hinit : omapGet (rows.foldl (fun m r => omapSet m r.id (0 : Int)) []) r.id =
      some 0 := foldl_set_get_of_mem rows (fun r => r.id) (fun _ => (0 : Int)) [] hn h
  rw [selfIndFold_get rows rows _ r.id 0 hinit, count_id_filter hn h, depsOfRow_len hn h]
  by_cases hs : selfHasDep rows r <;> simp [hs]

theorem selfInd_keys (rows : List Row) (hn : (rows.map (fun r => r.id)).Nodup) :
    omapKeys (selfInDegChildren rows).1 = rows.map (fun r => r.id) := by
  rw [selfInDegChildren_split]
  have hinitk : omapKeys (rows.foldl (fun m r => omapSet m r.id (0 : Int)) []) =
      rows.map (fun r => r.id) := by
    rw [foldl_set_eq_append rows (fun r => r.id) (fun _ => (0 : Int)) [] hn
      (by simp [omapKeys])]
    simp [omapKeys]
  rw [selfIndFold_keys rows rows _ ?_, hinitk]
  intro r hr
  rw [hinitk]
  exact List.mem_map.mpr ⟨r, hr, rfl⟩

theorem selfCh_get_of_mem (rows : List Row)
    (hn : (rows.map (fun r => r.id)).Nodup) {p : String}
    (hp : p ∈ rows.map (fun x => x.id)) :
    omapGet (selfInDegChildren rows).2 p =
      some ((rows.filter (fun r => rowTruthyParent r = some p)).map (fun r => r.id)) := by
  rw [selfInDegChildren_split]
  have hinit : omapGet (rows.foldl (fun m r => omapSet m r.id ([] : List String)) []) p =
      some [] := by
    obtain ⟨r, hr, rfl⟩ := List.mem_map.mp hp
    exact foldl_set_get_of_mem rows (fun r => r.id) (fun _ => ([] : List String)) [] hn hr
  have := selfChFold_get rows rows _ p [] hinit hp hn (by simp)
  simpa using this

theorem rows_initial_inv (rows : List Row)
    (hn : (rows.map (fun r => r.id)).Nodup) :
    KahnInv (rows.map (fun r => r.id)) (depsOfRow rows) []
      (initQueue (selfInDegChildren rows).1) (selfInDegChildren rows).1
      (selfInDegChildren rows).2 := by
  have hq : initQueue (selfInDegChildren rows).1 =
      (rows.map (fun r => r.id)).filter
        (fun k => omapGet (selfInDegChildren rows).1 k = some 0) := by
    rw [initQueue_eq_filter_keys _ ((selfInd_keys rows hn) ▸ hn), selfInd_keys rows hn]
  refine ⟨hn, fun n _ => depsOfRow_nodup rows n, fun n _ b hb => depsOfRow_sub hb,
    ?_, ?_, List.nodup_nil, by simp, goodorder_nil _, ?_, ?_, ?_⟩
  · -- chSpec
    intro p hp
    refine ⟨(rows.filter (fun r => rowTruthyParent r = some p)).map (fun r => r.id),
      selfCh_get_of_mem rows hn hp, ?_, ?_⟩
    · exact hn.sublist (List.Sublist.map _ (List.filter_sublist rows))
    · intro c
      constructor
      · intro hc
        obtain ⟨r, hr, rfl⟩ := List.mem_map.mp hc
        have hr' := List.mem_filter.mp hr
        have htr : rowTruthyParent r = some p := by simpa using hr'.2
        refine ⟨List.mem_map.mpr ⟨r, hr'.1, rfl⟩, ?_⟩
        rw [depsOfRow_eq_of_truthy hn hr'.1 htr, if_pos (contains_iff_mem.mpr hp)]
        exact List.mem_singleton.mpr rfl
      · rintro ⟨hc, hdep⟩
        obtain ⟨r, hr, rfl⟩ := List.mem_map.mp hc
        cases htr : rowTruthyParent r with
        | none =>
          rw [depsOfRow_eq_of_falsy hn hr htr] at hdep
          simp at hdep
        | some pid =>
          rw [depsOfRow_eq_of_truthy hn hr htr] at hdep
          by_cases hcon : (rows.map (fun y => y.id)).contains pid = true
          · rw [if_pos hcon] at hdep
            obtain rfl := List.mem_singleton.mp hdep
            exact List.mem_map.mpr ⟨r, List.mem_filter.mpr ⟨hr, by simp [htr]⟩, rfl⟩
          · rw [if_neg hcon] at hdep
            simp at hdep
  · -- indSpecMem
    intro n hnm
    obtain ⟨r, hr, rfl⟩ := List.mem_map.mp hnm
    rw [selfInd_get_of_mem rows hn hr]
    simp
  · -- qNd
    rw [hq]
    exact hn.filter _
  · -- qSub
    intro q hqm
    rw [hq] at hqm
    exact ⟨(List.mem_filter.mp hqm).1, by simp⟩
  · -- qIff
    intro n hnm hnd
    obtain ⟨r, hr, rfl⟩ := List.mem_map.mp hnm
    rw [hq, List.mem_filter, selfInd_get_of_mem rows hn hr]
    constructor
    · rintro ⟨-, hz⟩
      simp only [Option.some.injEq, decide_eq_true_eq] at hz
      have hlen : (depsOfRow rows r.id).length = 0 := by exact_mod_cast hz
      intro b hb
      rw [List.length_eq_zero.mp hlen] at hb
      simp at hb
    · intro hall
      refine ⟨hnm, ?_⟩
      have hemp : depsOfRow rows r.id = [] := by
        rcases hd : depsOfRow rows r.id with _ | ⟨b, bs⟩
        · rfl
        · exfalso
          have := hall b (by rw [hd]; exact List.mem_cons_self b bs)
          simp at this
      simp [hemp]

theorem selfKahnIds_spec (rows : List Row)
    (hn : (rows.map (fun r => r.id)).Nodup) :
    (selfKahnIds rows).Nodup ∧
    (∀ n ∈ selfKahnIds rows, n ∈ rows.map (fun r => r.id)) ∧
    GoodOrder (depsOfRow rows) (selfKahnIds rows) ∧
    (∀ rank : String → Nat,
      (∀ n ∈ rows.map (fun r => r.id), ∀ b ∈ depsOfRow rows n, rank b < rank n) →
      ∀ n ∈ rows.map (fun r => r.id), n ∈ selfKahnIds rows) := by
  have hmaster := kahn_master (rows.map (fun r => r.id)) (depsOfRow rows)
    rows.length [] (initQueue (selfInDegChildren rows).1) (selfInDegChildren rows).1
    (selfInDegChildren rows).2 (rows_initial_inv rows hn) (by simp)
  obtain ⟨c1, c2, c3, c4⟩ := hmaster
  have heq : selfKahnIds rows = kahnLoop (selfInDegChildren rows).2 rows.length
      (selfInDegChildren rows).1 (initQueue (selfInDegChildren rows).1) := rfl
  rw [heq]
  refine ⟨by simpa using c1, fun n hn' => (c2 n hn').1, by simpa using c3, ?_⟩
  intro rank hr n hn'
  simpa using c4 rank hr n hn'

theorem rowById_get {rows : List Row}
    (hn : (rows.map (fun r => r.id)).Nodup) {r : Row} (h : r ∈ rows) :
    omapGet (rowById rows) r.id = some r :=
  foldl_set_get_of_mem rows (fun r => r.id) (fun r => r) [] hn h

theorem filterMap_byId_spec (rows : List Row)
    (hn : (rows.map (fun r => r.id)).Nodup) (l : List String)
    (hl : ∀ x ∈ l, x ∈ rows.map (fun r => r.id)) :
    ((l.filterMap (fun i => omapGet (rowById rows) i)).map (fun r => r.id) = l) ∧
    (∀ r ∈ l.filterMap (fun i => omapGet (rowById rows) i), r ∈ rows) := by
  induction l with
  | nil => simp
  | cons x l ih =>
    obtain ⟨r, hr, rfl⟩ := List.mem_map.mp (hl x (List.mem_cons_self x l))
    obtain ⟨ih1, ih2⟩ := ih (fun y hy => hl y (List.mem_cons_of_mem _ hy))
    rw [List.filterMap_cons, rowById_get hn hr]
    refine ⟨?_, ?_⟩
    · rw [List.map_cons, ih1]
    · intro r' hr'
      rcases List.mem_cons.mp hr' with rfl | hr'
      · exact hr
      · exact ih2 r' hr'

theorem selfKahnRows_map_id (rows : List Row)
    (hn : (rows.map (fun r => r.id)).Nodup) :
    (selfKahnRows rows).map (fun r => r.id) = selfKahnIds rows :=
  (filterMap_byId_spec rows hn (selfKahnIds rows)
    (selfKahnIds_spec rows hn).2.1).1

theorem selfKahnRows_sub (rows : List Row)
    (hn : (rows.map (fun r => r.id)).Nodup) :
    ∀ r ∈ selfKahnRows rows, r ∈ rows :=
  (filterMap_byId_spec rows hn (selfKahnIds rows)
    (selfKahnIds_spec rows hn).2.1).2

theorem topoSortSelfRows_def (rows : List Row) :
    topoSortSelfRows rows =
      if (selfKahnRows rows).length != rows.length then
        ⟨selfKahnRows rows ++ rows.filter
          (fun r => !(((selfKahnRows rows).map (fun x => x.id)).contains r.id)),
         (selfKahnRows rows).length != rows.length⟩
      else ⟨selfKahnRows rows, (selfKahnRows rows).length != rows.length⟩ := rfl

theorem topoSortSelfRows_hasCycle_iff (rows : List Row)
    (hn : (rows.map (fun r => r.id)).Nodup) :
    ((topoSortSelfRows rows).hasCycle = true ↔ (selfKahnIds rows).length ≠ rows.length) := by
  have hlen : (selfKahnRows rows).length = (selfKahnIds rows).length := by
    rw [← selfKahnRows_map_id rows hn, List.length_map]
  have hcyc : (topoSortSelfRows rows).hasCycle =
      ((selfKahnRows rows).length != rows.length) := by
    rw [topoSortSelfRows_def]
    by_cases h : (selfKahnRows rows).length != rows.length
    · rw [if_pos h]
    · rw [if_neg h]
  rw [hcyc, hlen]
  simp [bne_iff_ne]

theorem topoSortSelfRows_ordered_eq (rows : List Row)
    (hn : (rows.map (fun r => r.id)).Nodup) :
    (topoSortSelfRows rows).ordered = selfKahnRows rows ++
      rows.filter (fun r => !(((selfKahnRows rows).map (fun x => x.id)).contains r.id)) := by
  rw [topoSortSelfRows_def]
  by_cases h : (selfKahnRows rows).length != rows.length
  · rw [if_pos h]
  · rw [if_neg h]
    simp only [bne_iff_ne, ne_eq, not_not] at h
    obtain ⟨knd, ksub, -, -⟩ := selfKahnIds_spec rows hn
    have hlen : (selfKahnIds rows).length = rows.length := by
      rw [← selfKahnRows_map_id rows hn, List.length_map] at *
      exact h
    have hall := subset_of_nodup_length knd (fun x hx => ksub x hx)
      (by simp only [List.length_map]; omega)
    have hfil : rows.filter
        (fun r => !(((selfKahnRows rows).map (fun x => x.id)).contains r.id)) = [] := by
      rw [List.filter_eq_nil_iff]
      intro r hr
      simp only [Bool.not_eq_true', Bool.not_eq_false]
      rw [selfKahnRows_map_id rows hn]
      exact contains_iff_mem.mpr (hall r.id (List.mem_map.mpr ⟨r, hr, rfl⟩))
    rw [hfil, List.append_nil]

theorem topoSortSelfRows_perm (rows : List Row)
    (hn : (rows.map (fun r => r.id)).Nodup) :
    List.Perm (topoSortSelfRows rows).ordered rows := by
  have hrownd : rows.Nodup := hn.of_map
  have hknd : (selfKahnRows rows).Nodup :=
    ((selfKahnRows_map_id rows hn) ▸ (selfKahnIds_spec rows hn).1).of_map
  rw [topoSortSelfRows_ordered_eq rows hn]
  have hout : (selfKahnRows rows ++ rows.filter
      (fun r => !(((selfKahnRows rows).map (fun x => x.id)).contains r.id))).Nodup := by
    rw [List.nodup_append]
    refine ⟨hknd, hrownd.filter _, ?_⟩
    intro r hr hrfil
    have := (List.mem_filter.mp hrfil).2
    simp only [Bool.not_eq_true'] at this
    have hnotin : r.id ∉ (selfKahnRows rows).map (fun x => x.id) := by
      intro hmem
      rw [(contains_iff_mem (s := (selfKahnRows rows).map (fun x => x.id))).mpr hmem] at this
      cases this
    exact hnotin (List.mem_map.mpr ⟨r, hr, rfl⟩)
  refine (List.perm_ext_iff_of_nodup hout hrownd).mpr ?_
  intro r
  simp only [List.mem_append, List.mem_filter, Bool.not_eq_true']
  constructor
  · rintro (hr | ⟨hr, -⟩)
    · exact selfKahnRows_sub rows hn r hr
    · exact hr
  · intro hr
    by_cases hin : r ∈ selfKahnRows rows
    · exact Or.inl hin
    · refine Or.inr ⟨hr, ?_⟩
      have : r.id ∉ (selfKahnRows rows).map (fun x => x.id) := by
        intro hmem
        obtain ⟨r', hr', hid⟩ := List.mem_map.mp hmem
        have : r' = r := List.inj_on_of_nodup_map hn
          (selfKahnRows_sub rows hn r' hr') hr hid
        exact hin (this ▸ hr')
      simp [contains_iff_mem, this]

theorem selfHasDep_iff (rows : List Row) (r : Row) :
    selfHasDep rows r = true ↔
      ∃ p, rowTruthyParent r = some p ∧ p ∈ rows.map (fun y => y.id) := by
  unfold selfHasDep
  cases htr : rowTruthyParent r with
  | none => simp
  | some pid =>
    simp only [contains_iff_mem]
    constructor
    · intro h
      exact ⟨pid, rfl, h⟩
    · rintro ⟨p, hp, hmem⟩
      obtain rfl := Option.some.inj hp
      exact hmem

theorem selfInitQueue_eq (rows : List Row) (hn : (rows.map (fun r => r.id)).Nodup) :
    initQueue (selfInDegChildren rows).1 =
      (rows.map (fun r => r.id)).filter
        (fun k => omapGet (selfInDegChildren rows).1 k = some 0) := by
  rw [initQueue_eq_filter_keys _ ((selfInd_keys rows hn) ▸ hn), selfInd_keys rows hn]

theorem topoSortSelfRows_ordered_of_complete (rows : List Row)
    (hn : (rows.map (fun r => r.id)).Nodup)
    (hcomp : ∀ n ∈ rows.map (fun r => r.id), n ∈ selfKahnIds rows) :
    (topoSortSelfRows rows).ordered = selfKahnRows rows := by
  rw [topoSortSelfRows_ordered_eq rows hn]
  have hfil : rows.filter
      (fun r => !(((selfKahnRows rows).map (fun x => x.id)).contains r.id)) = [] := by
    rw [List.filter_eq_nil_iff]
    intro r hr
    simp only [Bool.not_eq_true', Bool.not_eq_false]
    rw [selfKahnRows_map_id rows hn]
    exact contains_iff_mem.mpr (hcomp r.id (List.mem_map.mpr ⟨r, hr, rfl⟩))
  rw [hfil, List.append_nil]

/-! Claim theorems for the row-level sort. -/

/-- C3 as stated is refuted by this input: the row `⟨x, parent = ""⟩` has a
non-null parent value whose id exists in the row set (a row with id `""` is
present), yet `topoSortSelfRows` assigns it in-degree 0, because the
JavaScript falsy test `if (!parentId)` treats the empty string like null. -/
theorem c3_self_rows_counterexample :
    (⟨"x", some ""⟩ : Row) ∈ blankRows ∧
    (⟨"x", some ""⟩ : Row).parent = some "" ∧
    (some "" ≠ (none : Option String)) ∧
    ("" ∈ blankRows.map (fun r => r.id)) ∧
    omapGet (selfInDegChildren blankRows).1 "x" = some 0 := by
  decide

/-- C3 (amended): a row's in-degree is 1 exactly when its parent-FK value is
truthy (non-null, non-undefined, and not the empty string) and some row with
that id exists in the row set, else 0; when the row graph is acyclic the
resolver orders every parent strictly before each of its children with
`hasCycle = false`; and the scenario rows `{1,null},{2,1},{3,2}` given in
order `[3,1,2]` come out as `[1,2,3]` with `hasCycle = false`. -/
theorem c3_self_rows_amended :
    (∀ rows : List Row, (rows.map (fun r => r.id)).Nodup →
      (∀ r ∈ rows, omapGet (selfInDegChildren rows).1 r.id =
        some (if (∃ p, rowTruthyParent r = some p ∧ p ∈ rows.map (fun y => y.id))
          then 1 else 0)) ∧
      ((∃ rank : String → Nat, ∀ r ∈ rows, ∀ p ∈ depsOfRow rows r.id,
          rank p < rank r.id) →
        (topoSortSelfRows rows).hasCycle = false ∧
        (∀ r ∈ rows, ∀ p, rowTruthyParent r = some p →
          p ∈ rows.map (fun y => y.id) →
          ((topoSortSelfRows rows).ordered.map (fun x => x.id)).indexOf p <
            ((topoSortSelfRows rows).ordered.map (fun x => x.id)).indexOf r.id))) ∧
    topoSortSelfRows taskRows =
      ⟨[⟨"1", none⟩, ⟨"2", some "1"⟩, ⟨"3", some "2"⟩], false⟩ := by
  constructor
  · intro rows hn
    constructor
    · intro r hr
      rw [selfInd_get_of_mem rows hn hr, depsOfRow_len hn hr]
      have hiff := selfHasDep_iff rows r
      by_cases hs : selfHasDep rows r = true
      · rw [if_pos hs, if_pos (hiff.mp hs)]
        rfl
      · rw [if_neg hs, if_neg (fun hex => hs (hiff.mpr hex))]
        rfl
    · rintro ⟨rank, hrank⟩
      have hrank' : ∀ n ∈ rows.map (fun r => r.id),
          ∀ b ∈ depsOfRow rows n, rank b < rank n := by
        intro n hnm b hb
        obtain ⟨r, hr, rfl⟩ := List.mem_map.mp hnm
        exact hrank r hr b hb
      obtain ⟨knd, ksub, kgood, kcompl⟩ := selfKahnIds_spec rows hn
      have hcomp := kcompl rank hrank'
      have hlen : (selfKahnIds rows).length = rows.length := by
        have h1 := (List.subperm_of_subset knd (fun x hx => ksub x hx)).length_le
        have h2 := (List.subperm_of_subset hn (fun x hx => hcomp x hx)).length_le
        simp only [List.length_map] at h1 h2
        omega
      constructor
      · have := topoSortSelfRows_hasCycle_iff rows hn
        rcases hcv : (topoSortSelfRows rows).hasCycle with _ | _
        · rfl
        · exact absurd (this.mp hcv) (by omega)
      · intro r hr p htr hpmem
        have hord : (topoSortSelfRows rows).ordered.map (fun x => x.id) =
            selfKahnIds rows := by
          rw [topoSortSelfRows_ordered_of_complete rows hn hcomp,
            selfKahnRows_map_id rows hn]
        have hdep : p ∈ depsOfRow rows r.id := by
          rw [depsOfRow_eq_of_truthy hn hr htr, if_pos (contains_iff_mem.mpr hpmem)]
          exact List.mem_singleton.mpr rfl
        have hrin : r.id ∈ selfKahnIds rows :=
          hcomp r.id (List.mem_map.mpr ⟨r, hr, rfl⟩)
        obtain ⟨pre, suf, hps⟩ := List.append_of_mem hrin
        have hpin : p ∈ pre := kgood pre r.id suf hps p hdep
        have hrpre : r.id ∉ pre := by
          have hnd := hps ▸ knd
          rcases List.nodup_append.mp hnd with ⟨-, -, hdisj⟩
          intro hmem
          exact hdisj hmem (List.mem_cons_self _ _)
        rw [hord, hps, List.indexOf_append_of_mem hpin,
          List.indexOf_append_of_not_mem hrpre, List.indexOf_cons_self]
        have := List.indexOf_lt_length.mpr hpin
        omega
  · decide

/-- Witness for C3 (amended): for the scenario rows, the in-degree of row 2
is given by the truthy-and-present rule, and the acyclic run reports no
cycle, through the general theorem. -/
theorem c3_self_rows_amended_witness :
    (omapGet (selfInDegChildren taskRows).1 "2" =
      some (if (∃ p, rowTruthyParent ⟨"2", some "1"⟩ = some p ∧
        p ∈ taskRows.map (fun y => y.id)) then 1 else 0)) ∧
    (topoSortSelfRows taskRows).hasCycle = false :=
  ⟨(c3_self_rows_amended.1 taskRows (by decide)).1 ⟨"2", some "1"⟩ (by decide),
   ((c3_self_rows_amended.1 taskRows (by decide)).2
     ⟨fun n => if n = "1" then 0 else if n = "2" then 1 else 2, by decide⟩).1⟩

/-- C6: for every row set with distinct ids, the resolver returns a
permutation of the input rows; its output is the Kahn order followed by
exactly the unconsumed rows in their original input order; `hasCycle` is true
exactly when the Kahn loop consumed fewer rows than the input contains; and
the two-row cycle scenario returns both rows with `hasCycle = true`. -/
theorem c6_cycle_fallback :
    (∀ rows : List Row, (rows.map (fun r => r.id)).Nodup →
      List.Perm (topoSortSelfRows rows).ordered rows ∧
      (topoSortSelfRows rows).ordered = selfKahnRows rows ++
        rows.filter (fun r => !(((selfKahnRows rows).map (fun x => x.id)).contains r.id)) ∧
      ((topoSortSelfRows rows).hasCycle = true ↔
        (selfKahnIds rows).length ≠ rows.length)) ∧
    ((topoSortSelfRows taskRowsCycle).ordered = taskRowsCycle ∧
     (topoSortSelfRows taskRowsCycle).hasCycle = true) :=
  ⟨fun rows hn => ⟨topoSortSelfRows_perm rows hn, topoSortSelfRows_ordered_eq rows hn,
    topoSortSelfRows_hasCycle_iff rows hn⟩, by decide⟩

/-- Witness for C6: the two-row cycle, where the Kahn loop consumes nothing
and the fallback appends both rows, through the general theorem. -/
theorem c6_cycle_fallback_witness :
    List.Perm (topoSortSelfRows taskRowsCycle).ordered taskRowsCycle ∧
    (topoSortSelfRows taskRowsCycle).ordered = selfKahnRows taskRowsCycle ++
      taskRowsCycle.filter
        (fun r => !(((selfKahnRows taskRowsCycle).map (fun x => x.id)).contains r.id)) ∧
    ((topoSortSelfRows taskRowsCycle).hasCycle = true ↔
      (selfKahnIds taskRowsCycle).length ≠ taskRowsCycle.length) :=
  c6_cycle_fallback.1 taskRowsCycle (by decide)

/-- C10: a row whose parent-FK value is the empty string (or undefined,
modelled with null as `none`) is treated exactly like a null parent: its
in-degree is 0 and it enters the initial root queue — even when another row
of the set has the empty string as its id, as the concrete `blankRows` run
shows (the row set comes back unchanged, no cycle, and the children list of
the row with id `""` is empty). -/
theorem c10_falsy_parent_is_root :
    (∀ rows : List Row, (rows.map (fun r => r.id)).Nodup →
      ∀ r ∈ rows, (r.parent = none ∨ r.parent = some "") →
        omapGet (selfInDegChildren rows).1 r.id = some 0 ∧
        r.id ∈ initQueue (selfInDegChildren rows).1) ∧
    (topoSortSelfRows blankRows = ⟨blankRows, false⟩ ∧
     omapGet (selfInDegChildren blankRows).2 "" = some []) := by
  constructor
  · intro rows hn r hr hpar
    have htr : rowTruthyParent r = none := by
      unfold rowTruthyParent
      rcases hpar with hp | hp
      · rw [hp]
      · rw [hp]
        show (if "" = "" then none else some "") = none
        rw [if_pos rfl]
    have hget : omapGet (selfInDegChildren rows).1 r.id = some 0 := by
      rw [selfInd_get_of_mem rows hn hr, depsOfRow_eq_of_falsy hn hr htr]
      rfl
    refine ⟨hget, ?_⟩
    rw [selfInitQueue_eq rows hn]
    refine List.mem_filter.mpr ⟨List.mem_map.mpr ⟨r, hr, rfl⟩, ?_⟩
    simp [hget]
  · decide

/-- Witness for C10: the row with the empty-string parent in `blankRows` is a
root with in-degree 0, through the general theorem. -/
theorem c10_falsy_parent_is_root_witness :
    omapGet (selfInDegChildren blankRows).1 "x" = some 0 ∧
    "x" ∈ initQueue (selfInDegChildren blankRows).1 :=
  c10_falsy_parent_is_root.1 blankRows (by decide) ⟨"x", some ""⟩ (by decide) (Or.inr rfl)

/-! The pagination loop: it fetches the batch-size pattern of pages. -/

theorem dropWhile_le_sorted {ι : Type} [LinearOrder ι] :
    ∀ (src : List ι), src.Pairwise (· < ·) → ∀ (i : Nat) (e : ι), src[i]? = some e →
      src.dropWhile (fun x => decide (x ≤ e)) = src.drop (i + 1) := by
  intro src
  induction src with
  | nil =>
    intro _ i e h
    simp at h
  | cons a t ih =>
    intro hp i e hget
    rcases i with _ | i
    · obtain rfl : a = e := by simpa using hget
      rw [List.dropWhile_cons_of_pos (by simp)]
      cases t with
      | nil => simp
      | cons x t' =>
        have hax : a < x := (List.pairwise_cons.mp hp).1 x (List.mem_cons_self x t')
        rw [List.dropWhile_cons_of_neg (by simp [not_le.mpr hax])]
        simp
    · have hp' := (List.pairwise_cons.mp hp).2
      have hget' : t[i]? = some e := by simpa using hget
      have hae : a < e :=
        (List.pairwise_cons.mp hp).1 e (List.getElem?_mem hget')
      rw [List.dropWhile_cons_of_pos (by simp [le_of_lt hae]), ih hp' i e hget']
      rfl

theorem page_last_get {ι : Type} [LinearOrder ι] (src : List ι) (p b : Nat) (e : ι)
    (h : ((src.drop p).take b).getLast? = some e) :
    src[p + ((src.drop p).take b).length - 1]? = some e := by
  have hne : (src.drop p).take b ≠ [] := by
    intro hh
    rw [hh] at h
    cases h
  have hlen : 0 < ((src.drop p).take b).length := List.length_pos.mpr hne
  have hb : ((src.drop p).take b).length ≤ b := by
    have := List.length_take b (src.drop p)
    omega
  have h1 : ((src.drop p).take b)[((src.drop p).take b).length - 1]? = some e := by
    rw [← List.getLast?_eq_getElem?]
    exact h
  rw [List.getElem?_take] at h1
  rw [if_pos (by omega : ((src.drop p).take b).length - 1 < b)] at h1
  rw [List.getElem?_drop] at h1
  rw [show p + ((src.drop p).take b).length - 1 =
    p + (((src.drop p).take b).length - 1) by omega]
  exact h1

theorem pageLoop_eq_pattern {ι : Type} [LinearOrder ι] (src : List ι)
    (hs : src.Pairwise (· < ·)) (b : Nat) :
    ∀ (fuel p : Nat) (cursor : Option ι), p ≤ src.length →
      srcSuffix src cursor = src.drop p →
      pageLoop src src.length b fuel p cursor =
        (fetchPatternGo b fuel (src.length - p), insPatternGo b fuel (src.length - p)) := by
  intro fuel
  induction fuel with
  | zero =>
    intro p cursor hp hc
    rcases hr : src.length - p with _ | r <;> rfl
  | succ fuel ih =>
    intro p cursor hp hc
    by_cases hlt : p < src.length
    case neg =>
      have hr : src.length - p = 0 := by omega
      rw [hr]
      show (if p < src.length then _ else ([], 0)) = _
      rw [if_neg hlt]
      rfl
    case pos =>
    obtain ⟨r, hr⟩ : ∃ r, src.length - p = r + 1 := ⟨src.length - p - 1, by omega⟩
    have hpage : findPage src b cursor = (src.drop p).take b := by
      unfold findPage
      rw [hc]
    have hplen : ((src.drop p).take b).length = min b (src.length - p) := by
      rw [List.length_take, List.length_drop]
    show (if p < src.length then _ else ([], 0)) = _
    rw [if_pos hlt]
    by_cases hb0 : b = 0
    · -- batch size zero: the fetch is empty and the loop records it and breaks
      subst hb0
      have hemp : findPage src 0 cursor = [] := by
        simpa using hpage
      rw [hr]
      simp only [hemp, List.getLast?_nil]
      rfl
    · -- positive batch size: the page is nonempty
      have hbpos : 0 < b := Nat.pos_of_ne_zero hb0
      have hne : findPage src b cursor ≠ [] := by
        rw [hpage]
        intro hh
        have := congrArg List.length hh
        rw [hplen] at this
        simp at this
        omega
      obtain ⟨e, he⟩ : ∃ e, (findPage src b cursor).getLast? = some e := by
        cases hg : (findPage src b cursor).getLast? with
        | none => exact absurd (List.getLast?_eq_none_iff.mp hg) hne
        | some e => exact ⟨e, rfl⟩
      have he' : ((src.drop p).take b).getLast? = some e := hpage ▸ he
      have hlen : (findPage src b cursor).length = min b (r + 1) := by
        rw [hpage, hplen, hr]
      have hcursor : srcSuffix src (some e) =
          src.drop (p + (findPage src b cursor).length) := by
        have hg := page_last_get src p b e he'
        show src.dropWhile (fun x => decide (x ≤ e)) = _
        rw [dropWhile_le_sorted src hs _ e hg]
        congr 1
        rw [← hpage]
        have hlenpos : 0 < (findPage src b cursor).length := by
          rw [hlen]
          omega
        omega
      have hrec := ih (p + (findPage src b cursor).length) (some e)
        (by rw [hlen]; omega) hcursor
      simp only [he]
      rw [hrec]
      have harg : src.length - (p + (findPage src b cursor).length) = r + 1 - b := by
        rw [hlen]
        omega
      show ((findPage src b cursor).length ::
          fetchPatternGo b fuel (src.length - (p + (findPage src b cursor).length)),
        insPatternGo b fuel (src.length - (p + (findPage src b cursor).length)) + 1) = _
      rw [harg, hr]
      have hfp : fetchPatternGo b (fuel + 1) (r + 1) =
          min b (r + 1) :: fetchPatternGo b fuel (r + 1 - b) := by
        show (if b = 0 then [0] else min b (r + 1) :: fetchPatternGo b fuel (r + 1 - b)) = _
        rw [if_neg hb0]
      have hip : insPatternGo b (fuel + 1) (r + 1) =
          insPatternGo b fuel (r + 1 - b) + 1 := by
        show (if b = 0 then 0 else insPatternGo b fuel (r + 1 - b) + 1) = _
        rw [if_neg hb0]
      rw [hfp, hip, hlen]

theorem fetchPatternGo_succ (b : Nat) :
    ∀ (fuel r : Nat), r ≤ fuel → fetchPatternGo b (fuel + 1) r = fetchPatternGo b fuel r := by
  intro fuel
  induction fuel with
  | zero =>
    intro r hr
    obtain rfl : r = 0 := by omega
    rfl
  | succ fuel ih =>
    intro r hr
    rcases r with _ | r'
    · rfl
    · show (if b = 0 then [0] else min b (r' + 1) :: fetchPatternGo b (fuel + 1) (r' + 1 - b)) =
        (if b = 0 then [0] else min b (r' + 1) :: fetchPatternGo b fuel (r' + 1 - b))
      by_cases hb : b = 0
      · rw [if_pos hb, if_pos hb]
      · rw [if_neg hb, if_neg hb, ih (r' + 1 - b) (by omega)]

theorem insPatternGo_succ (b : Nat) :
    ∀ (fuel r : Nat), r ≤ fuel → insPatternGo b (fuel + 1) r = insPatternGo b fuel r := by
  intro fuel
  induction fuel with
  | zero =>
    intro r hr
    obtain rfl : r = 0 := by omega
    rfl
  | succ fuel ih =>
    intro r hr
    rcases r with _ | r'
    · rfl
    · show (if b = 0 then 0 else insPatternGo b (fuel + 1) (r' + 1 - b) + 1) =
        (if b = 0 then 0 else insPatternGo b fuel (r' + 1 - b) + 1)
      by_cases hb : b = 0
      · rw [if_pos hb, if_pos hb]
      · rw [if_neg hb, if_neg hb, ih (r' + 1 - b) (by omega)]

theorem pagedTransfer_eq {ι : Type} [LinearOrder ι] (src : List ι)
    (hs : src.Pairwise (· < ·)) (b : Nat) :
    pagedTransfer src b = (fetchPattern b src.length, insPattern b src.length) := by
  unfold pagedTransfer fetchPattern insPattern
  rw [pageLoop_eq_pattern src hs b (src.length + 1) 0 none (by omega) rfl]
  rw [Nat.sub_zero, fetchPatternGo_succ b src.length src.length (by omega),
    insPatternGo_succ b src.length src.length (by omega)]

theorem fetchPatternGo_ne_nil_arg (b : Nat) (fuel r : Nat)
    (h : fetchPatternGo b fuel r ≠ []) : r ≠ 0 := by
  intro hr
  subst hr
  exact h (by cases fuel <;> rfl)

theorem fetchPatternGo_dropLast (b : Nat) :
    ∀ (fuel r : Nat), ∀ x ∈ (fetchPatternGo b fuel r).dropLast, x = b := by
  intro fuel
  induction fuel with
  | zero =>
    intro r x hx
    rcases r with _ | r
    · rw [show fetchPatternGo b 0 0 = [] from rfl] at hx
      simp at hx
    · rw [show fetchPatternGo b 0 (r + 1) = [] from rfl] at hx
      simp at hx
  | succ fuel ih =>
    intro r x hx
    rcases r with _ | r'
    · rw [show fetchPatternGo b (fuel + 1) 0 = [] from rfl] at hx
      simp at hx
    · by_cases hb : b = 0
      · have : fetchPatternGo b (fuel + 1) (r' + 1) = [0] := by
          show (if b = 0 then [0] else _) = [0]
          rw [if_pos hb]
        rw [this] at hx
        simp at hx
      · have hstep : fetchPatternGo b (fuel + 1) (r' + 1) =
            min b (r' + 1) :: fetchPatternGo b fuel (r' + 1 - b) := by
          show (if b = 0 then [0] else _) = _
          rw [if_neg hb]
        rw [hstep] at hx
        cases hgo : fetchPatternGo b fuel (r' + 1 - b) with
        | nil =>
          rw [hgo] at hx
          simp at hx
        | cons y ys =>
          rw [hgo, List.dropLast_cons₂] at hx
          rcases List.mem_cons.mp hx with rfl | hx'
          · have hne : r' + 1 - b ≠ 0 :=
              fetchPatternGo_ne_nil_arg b fuel _ (by rw [hgo]; simp)
            omega
          · have := ih (r' + 1 - b) x (by rw [hgo]; exact hx')
            exact this

/-! Claim theorems for the batch transfer engine and the orchestrator. -/

/-- C8: over a source table in ascending primary-key order, every page fetch
except possibly the final one returns exactly the batch size (the loop stops
after a short or empty fetch); and a 1200-row source with batch size 500
issues exactly 3 fetches returning 500, 500, 200 rows and exactly 3 bulk
inserts. -/
theorem c8_pagination_batches :
    (∀ (ι : Type) [LinearOrder ι], ∀ (src : List ι) (b : Nat),
      src.Pairwise (· < ·) → ∀ x ∈ (pagedTransfer src b).1.dropLast, x = b) ∧
    (∀ (ι : Type) [LinearOrder ι], ∀ src : List ι,
      src.Pairwise (· < ·) → src.length = 1200 →
      pagedTransfer src 500 = ([500, 500, 200], 3)) := by
  constructor
  · intro ι _ src b hs x hx
    rw [pagedTransfer_eq src hs b] at hx
    exact fetchPatternGo_dropLast b src.length src.length x hx
  · intro ι _ src hs hlen
    rw [pagedTransfer_eq src hs 500, hlen]
    show (fetchPattern 500 1200, insPattern 500 1200) = ([500, 500, 200], 3)
    decide

/-- Witness for C8: the 1200-row ascending source `range 1200` produces
fetches of 500, 500 and 200 rows and three bulk inserts, through the general
theorem. -/
theorem c8_pagination_batches_witness :
    pagedTransfer (List.range 1200) 500 = ([500, 500, 200], 3) :=
  c8_pagination_batches.2 Nat (List.range 1200)
    (List.pairwise_lt_range 1200) (List.length_range 1200)

theorem chunkedInsert_events_tag (t : String) (ok : Bool) :
    ∀ chunks, ∀ e ∈ (chunkedInsert t ok chunks).1, evTable e = t := by
  intro chunks
  induction chunks with
  | nil =>
    intro e he
    simp [chunkedInsert] at he
  | cons c rest ih =>
    intro e he
    unfold chunkedInsert at he
    by_cases hok : ok = true
    · rw [if_pos hok] at he
      rcases List.mem_cons.mp he with rfl | he
      · rfl
      · exact ih e he
    · rw [if_neg hok] at he
      simp at he

theorem pagedMigrate_events_tag (t : String) (src : List Row) (ok : Bool) (total b : Nat) :
    ∀ fuel processed cursor, ∀ e ∈ (pagedMigrate t src ok total b fuel processed cursor).1,
      evTable e = t := by
  intro fuel
  induction fuel with
  | zero =>
    intro processed cursor e he
    simp [pagedMigrate] at he
  | succ fuel ih =>
    intro processed cursor e he
    unfold pagedMigrate at he
    by_cases hlt : processed < total
    · rw [if_pos hlt] at he
      rcases hg : (findPageRows src b cursor).getLast? with _ | lastRow
      · simp only [hg] at he
        rcases List.mem_singleton.mp he with rfl
        rfl
      · simp only [hg] at he
        by_cases hok : ok = true
        · rw [if_pos hok] at he
          simp only [List.mem_cons] at he
          rcases he with rfl | rfl | he
          · rfl
          · rfl
          · exact ih _ _ e he
        · rw [if_neg hok] at he
          rcases List.mem_singleton.mp he with rfl
          rfl
    · rw [if_neg hlt] at he
      simp at he

theorem migrateTable_events_tag (src : String → List Row) (insertOk : String → Bool)
    (b : Nat) (model : DmmfModel) :
    ∀ e ∈ (migrateTable src insertOk b model).1, evTable e = model.name := by
  intro e he
  unfold migrateTable at he
  by_cases hz : (src model.name).length = 0
  · rw [if_pos hz] at he
    rcases List.mem_singleton.mp he with rfl
    rfl
  · rw [if_neg hz] at he
    by_cases hself : (getSelfRelationFkFields model).length = 1
    · rw [if_pos hself] at he
      rcases List.mem_cons.mp he with rfl | he
      · rfl
      · rcases List.mem_cons.mp he with rfl | he
        · rfl
        · exact chunkedInsert_events_tag model.name (insertOk model.name) _ e he
    · rw [if_neg hself] at he
      rcases List.mem_cons.mp he with rfl | he
      · rfl
      · exact pagedMigrate_events_tag model.name (src model.name)
          (insertOk model.name) _ b _ _ _ e he

theorem migrateTable_zero (src : String → List Row) (insertOk : String → Bool)
    (b : Nat) (model : DmmfModel) (hz : (src model.name).length = 0) :
    migrateTable src insertOk b model = ([Ev.count model.name 0], none) := by
  unfold migrateTable
  rw [if_pos hz]

theorem migrateLoop_zero_table (models : List DmmfModel) (delegates : String → Bool)
    (src : String → List Row) (insertOk : String → Bool) (b : Nat) (t : String)
    (hz : (src t).length = 0) :
    ∀ ts, ∀ e ∈ (migrateLoop models delegates src insertOk b ts).1,
      evTable e = t → e = Ev.count t 0 := by
  intro ts
  induction ts with
  | nil =>
    intro e he
    simp [migrateLoop] at he
  | cons t' rest ih =>
    intro e he htag
    unfold migrateLoop at he
    cases hf : models.find? (fun m => m.name == t') with
    | none =>
      simp only [hf] at he
      exact ih e he htag
    | some model =>
      simp only [hf] at he
      have hname : model.name = t' := by
        have := List.find?_some hf
        simpa using this
      by_cases hdel : delegates t' = true
      · rw [if_pos hdel] at he
        cases hmig : migrateTable src insertOk b model with
        | mk evs err =>
          cases err with
          | none =>
            simp only [hmig, List.mem_append] at he
            rcases he with he | he
            · have htg := migrateTable_events_tag src insertOk b model e
                (by rw [hmig]; exact he)
              rw [htag, hname] at htg
              subst htg
              have hzc : (src model.name).length = 0 := by rw [hname]; exact hz
              have h0 := migrateTable_zero src insertOk b model hzc
              rw [h0] at hmig
              injection hmig with h1 h2
              rw [← h1] at he
              obtain rfl := List.mem_singleton.mp he
              rw [hname]
            · exact ih e he htag
          | some err =>
            simp only [hmig] at he
            have htg := migrateTable_events_tag src insertOk b model e
              (by rw [hmig]; exact he)
            rw [htag, hname] at htg
            subst htg
            have hzc : (src model.name).length = 0 := by rw [hname]; exact hz
            have h0 := migrateTable_zero src insertOk b model hzc
            rw [h0] at hmig
            injection hmig with h1 h2
            cases h2
      · rw [if_neg hdel] at he
        exact ih e he htag

/-- C9: a table whose source row count is zero is reported with a zero-count
probe and nothing else — no bulk insert and no page fetch ever reaches the
destination or source for it: its per-table run is exactly `[count t 0]`, and
in the whole orchestrated run the only event addressed to such a table is
that zero count. -/
theorem c9_zero_rows_no_write :
    (∀ (src : String → List Row) (insertOk : String → Bool) (b : Nat)
        (model : DmmfModel), (src model.name).length = 0 →
      migrateTable src insertOk b model = ([Ev.count model.name 0], none)) ∧
    (∀ (models : List DmmfModel) (delegates : String → Bool)
        (src : String → List Row) (insertOk : String → Bool) (b : Nat) (t : String),
      (src t).length = 0 →
      ∀ e ∈ (runMigration models delegates src insertOk b).1,
        evTable e = t → e = Ev.count t 0) :=
  ⟨fun src insertOk b model hz => migrateTable_zero src insertOk b model hz,
   fun models delegates src insertOk b t hz =>
     migrateLoop_zero_table models delegates src insertOk b t hz (topoSortModels models)⟩

/-- Witness for C9: a concrete two-table run in which table `A` has no source
rows; its transfer is exactly the zero count with no insert, through the
general theorem. -/
theorem c9_zero_rows_no_write_witness :
    migrateTable (fun t => if t = "A" then [] else [⟨"b1", none⟩])
      (fun _ => true) 500 ⟨"A", []⟩ = ([Ev.count "A" 0], none) :=
  c9_zero_rows_no_write.1 (fun t => if t = "A" then [] else [⟨"b1", none⟩])
    (fun _ => true) 500 ⟨"A", []⟩ (by decide)

/-- C4 as stated is refuted by this run: tables `A` and `B` both hold one
row, the destination rejects inserts into `A`, and the orchestrator does not
continue to `B` — the run stops at the failed insert with no event addressed
to `B` (in particular `B` is never counted or written), and the process exits
non-zero immediately rather than after completing the remaining tables. -/
theorem c4_insert_failure_counterexample :
    runMigration [⟨"A", []⟩, ⟨"B", []⟩] (fun _ => true)
        (fun t => if t = "A" then [⟨"a1", none⟩] else [⟨"b1", none⟩])
        (fun t => t != "A") 500 =
      ([Ev.count "A" 1, Ev.page "A" 1], some "createMany failed") ∧
    (∀ e ∈ (runMigration [⟨"A", []⟩, ⟨"B", []⟩] (fun _ => true)
        (fun t => if t = "A" then [⟨"a1", none⟩] else [⟨"b1", none⟩])
        (fun t => t != "A") 500).1, evTable e ≠ "B") ∧
    exitCode (runMigration [⟨"A", []⟩, ⟨"B", []⟩] (fun _ => true)
        (fun t => if t = "A" then [⟨"a1", none⟩] else [⟨"b1", none⟩])
        (fun t => t != "A") 500) = 1 := by
  decide

/-- C4 (amended): a bulk insert rejected by the destination aborts the whole
run at that table — the thrown error propagates out of the table loop, so the
remaining tables in the resolved order are never visited (the result does not
depend on them) and the process exits non-zero; tables completed before the
failure keep their data (their events stand in the trace). -/
theorem c4_insert_failure_aborts :
    ∀ (models : List DmmfModel) (delegates : String → Bool)
      (src : String → List Row) (insertOk : String → Bool) (b : Nat)
      (t : String) (rest : List String) (mo : DmmfModel) (evs : List Ev) (err : String),
      models.find? (fun m => m.name == t) = some mo →
      delegates t = true →
      migrateTable src insertOk b mo = (evs, some err) →
      migrateLoop models delegates src insertOk b (t :: rest) = (evs, some err) ∧
      exitCode (migrateLoop models delegates src insertOk b (t :: rest)) = 1 := by
  intro models delegates src insertOk b t rest mo evs err hf hdel hmig
  have hrun : migrateLoop models delegates src insertOk b (t :: rest) = (evs, some err) := by
    unfold migrateLoop
    simp only [hf]
    rw [if_pos hdel, hmig]
  exact ⟨hrun, by rw [hrun]; rfl⟩

/-- Witness for C4 (amended): in the concrete failing run, the loop headed by
table `A` returns the error immediately, independent of the remaining table
list, and the exit status is 1, through the general theorem. -/
theorem c4_insert_failure_aborts_witness :
    migrateLoop [⟨"A", []⟩, ⟨"B", []⟩] (fun _ => true)
        (fun t => if t = "A" then [⟨"a1", none⟩] else [⟨"b1", none⟩])
        (fun t => t != "A") 500 ("A" :: ["B"]) =
      ([Ev.count "A" 1, Ev.page "A" 1], some "createMany failed") ∧
    exitCode (migrateLoop [⟨"A", []⟩, ⟨"B", []⟩] (fun _ => true)
        (fun t => if t = "A" then [⟨"a1", none⟩] else [⟨"b1", none⟩])
        (fun t => t != "A") 500 ("A" :: ["B"])) = 1 :=
  c4_insert_failure_aborts [⟨"A", []⟩, ⟨"B", []⟩] (fun _ => true)
    (fun t => if t = "A" then [⟨"a1", none⟩] else [⟨"b1", none⟩])
    (fun t => t != "A") 500 "A" ["B"] ⟨"A", []⟩
    [Ev.count "A" 1, Ev.page "A" 1] "createMany failed"
    (by decide) rfl (by decide)

/-! The Kahn step lemma, sibling-class preservation, and loop
extensionality, used to prove that the row-level sort is idempotent (C5). -/

theorem sibClass_append (deps : String → List String) (p : String) (l₁ l₂ : List String) :
    sibClass deps p (l₁ ++ l₂) = sibClass deps p l₁ ++ sibClass deps p l₂ := by
  simp [sibClass]

theorem rootClass_append (deps : String → List String) (l₁ l₂ : List String) :
    rootClass deps (l₁ ++ l₂) = rootClass deps l₁ ++ rootClass deps l₂ := by
  simp [rootClass]

theorem singleton_of_len_le_one {l : List String} {m : String}
    (hlen : l.length ≤ 1) (hm : m ∈ l) : l = [m] := by
  cases l with
  | nil => simp at hm
  | cons x t =>
    cases t with
    | nil =>
      obtain rfl := List.mem_singleton.mp hm
      rfl
    | cons y s => simp at hlen

/-- One step of the Kahn loop: popping the queue head `m` preserves the
invariant; the loop equation and the characterization of the newly enqueued
children are exposed for reuse. -/
theorem kahn_step {ids : List String} {deps : String → List String}
    {done rest : List String} {ind : OMap Int} {ch : OMap (List String)} {m : String}
    (inv : KahnInv ids deps done (m :: rest) ind ch) :
    ∃ cs : List String, omapGet ch m = some cs ∧ cs.Nodup ∧
      (∀ c, c ∈ cs ↔ c ∈ ids ∧ m ∈ deps c) ∧
      (∀ fuel : Nat, kahnLoop ch (fuel + 1) ind (m :: rest) =
        m :: kahnLoop ch fuel (cs.foldl kahnStep (ind, rest)).1
          (rest ++ cs.filter (fun c => (omapGet ind c).getD 0 - 1 = 0))) ∧
      (∀ c, c ∈ cs.filter (fun c => (omapGet ind c).getD 0 - 1 = 0) ↔
        (c ∈ cs ∧ ∀ b ∈ deps c, b ∈ done ++ [m])) ∧
      KahnInv ids deps (done ++ [m])
        (rest ++ cs.filter (fun c => (omapGet ind c).getD 0 - 1 = 0))
        (cs.foldl kahnStep (ind, rest)).1 ch := by
  obtain ⟨hmids, hmdone⟩ := inv.qSub m (List.mem_cons_self m rest)
  have hmdeps : ∀ b ∈ deps m, b ∈ done :=
    (inv.qIff m hmids hmdone).mp (List.mem_cons_self m rest)
  obtain ⟨cs, hcsget, hcsnd, hcsiff⟩ := inv.chSpec m hmids
  have hmrest : m ∉ rest := (List.nodup_cons.mp inv.qNd).1
  have hrestnd : rest.Nodup := (List.nodup_cons.mp inv.qNd).2
  have hmcs : m ∉ cs := by
    intro hc
    exact hmdone (hmdeps m ((hcsiff m).mp hc).2)
  have hcsids : ∀ c ∈ cs, c ∈ ids := fun c hc => ((hcsiff c).mp hc).1
  have hcsdep : ∀ c ∈ cs, m ∈ deps c := fun c hc => ((hcsiff c).mp hc).2
  obtain ⟨hind, hqout⟩ := kahnStep_fold cs hcsnd ind rest
  have hflt : ∀ c ∈ cs,
      (((deps c).filter (fun b => b ∈ done)).length) < (deps c).length :=
    fun c hc => filter_length_lt_of_mem_not (hcsdep c hc) hmdone
  have hsnoc : ∀ n ∈ ids, m ∈ deps n →
      (((deps n).filter (fun b => b ∈ done ++ [m])).length) =
        (((deps n).filter (fun b => b ∈ done)).length) + 1 :=
    fun n hn hmd => length_filter_snoc_mem (inv.depsNd n hn) hmd hmdone
  have hkeep : ∀ n ∈ ids, m ∉ deps n →
      ((deps n).filter (fun b => b ∈ done ++ [m])) =
        ((deps n).filter (fun b => b ∈ done)) :=
    fun n _ hmd => filter_mem_snoc_of_not_mem hmd
  have hnewly : ∀ c, (c ∈ cs.filter (fun c => (omapGet ind c).getD 0 - 1 = 0)) ↔
      (c ∈ cs ∧ ∀ b ∈ deps c, b ∈ done ++ [m]) := by
    intro c
    rw [List.mem_filter]
    constructor
    · rintro ⟨hc, hcond⟩
      refine ⟨hc, ?_⟩
      rw [inv.indSpecMem c (hcsids c hc)] at hcond
      simp only [Option.getD_some, decide_eq_true_eq] at hcond
      have h1 := hflt c hc
      have h2 := hsnoc c (hcsids c hc) (hcsdep c hc)
      exact filter_length_eq_iff_all.mp (by omega)
    · rintro ⟨hc, hall⟩
      refine ⟨hc, ?_⟩
      rw [inv.indSpecMem c (hcsids c hc)]
      simp only [Option.getD_some, decide_eq_true_eq]
      have h2 := hsnoc c (hcsids c hc) (hcsdep c hc)
      have h3 := filter_length_eq_iff_all.mpr hall
      have h1 := hflt c hc
      omega
  have hnewlyNotDone : ∀ c ∈ cs, c ∉ done := by
    intro c hc hcd
    obtain ⟨p, s, hps⟩ := List.append_of_mem hcd
    have hp : ∀ b ∈ deps c, b ∈ p := inv.doneGood p c s hps
    have hall : ∀ b ∈ deps c, b ∈ done := by
      intro b hb
      rw [hps]
      exact List.mem_append.mpr (Or.inl (hp b hb))
    have := filter_length_eq_iff_all.mpr hall
    have := hflt c hc
    omega
  have hnewlyNotRest : ∀ c ∈ cs, c ∉ rest := by
    intro c hc hcr
    have hcq : c ∈ m :: rest := List.mem_cons_of_mem m hcr
    obtain ⟨hcids, hcdone⟩ := inv.qSub c hcq
    have hall := (inv.qIff c hcids hcdone).mp hcq
    have := filter_length_eq_iff_all.mpr hall
    have := hflt c hc
    omega
  have hloop : ∀ fuel : Nat, kahnLoop ch (fuel + 1) ind (m :: rest) =
      m :: kahnLoop ch fuel (cs.foldl kahnStep (ind, rest)).1
        (rest ++ cs.filter (fun c => (omapGet ind c).getD 0 - 1 = 0)) := by
    intro fuel
    conv_lhs => rw [kahnLoop]
    rw [hcsget]
    simp only [Option.getD_some]
    rw [hqout]
  have inv' : KahnInv ids deps (done ++ [m])
      (rest ++ cs.filter (fun c => (omapGet ind c).getD 0 - 1 = 0))
      (cs.foldl kahnStep (ind, rest)).1 ch := by
    refine ⟨inv.idsNd, inv.depsNd, inv.depsSub, inv.chSpec, ?_, ?_, ?_, ?_, ?_, ?_, ?_⟩
    · -- indSpecMem
      intro n hn
      rw [hind n]
      by_cases hc : n ∈ cs
      · rw [if_pos hc, inv.indSpecMem n hn]
        simp only [Option.getD_some]
        rw [hsnoc n hn (hcsdep n hc)]
        push_cast
        ring_nf
      · rw [if_neg hc, inv.indSpecMem n hn]
        have hmd : m ∉ deps n := fun hmd => hc ((hcsiff n).mpr ⟨hn, hmd⟩)
        rw [hkeep n hn hmd]
    · -- doneNd
      simp [List.nodup_append, inv.doneNd, hmdone]
    · -- doneSub
      intro n hn
      rcases List.mem_append.mp hn with hn | hn
      · exact inv.doneSub n hn
      · exact (List.mem_singleton.mp hn) ▸ hmids
    · -- doneGood
      exact GoodOrder.snoc inv.doneGood hmdeps
    · -- qNd
      refine List.Nodup.append hrestnd (List.Nodup.filter _ hcsnd) ?_
      intro c hcr hcn
      exact hnewlyNotRest c (List.mem_filter.mp hcn).1 hcr
    · -- qSub
      intro q hq
      rcases List.mem_append.mp hq with hq | hq
      · obtain ⟨h1, h2⟩ := inv.qSub q (List.mem_cons_of_mem m hq)
        refine ⟨h1, ?_⟩
        simp only [List.mem_append, List.mem_singleton, not_or]
        exact ⟨h2, fun hh => hmrest (hh ▸ hq)⟩
      · have hc := (List.mem_filter.mp hq).1
        refine ⟨hcsids _ hc, ?_⟩
        simp only [List.mem_append, List.mem_singleton, not_or]
        exact ⟨hnewlyNotDone _ hc, fun hh => hmcs (hh ▸ hc)⟩
    · -- qIff
      intro n hn hnd
      simp only [List.mem_append, List.mem_singleton, not_or] at hnd
      constructor
      · intro hq
        rcases List.mem_append.mp hq with hq | hq
        · have := (inv.qIff n hn hnd.1).mp (List.mem_cons_of_mem m hq)
          intro b hb
          exact List.mem_append.mpr (Or.inl (this b hb))
        · exact ((hnewly n).mp hq).2
      · intro hall
        by_cases hmd : m ∈ deps n
        · have hc : n ∈ cs := (hcsiff n).mpr ⟨hn, hmd⟩
          exact List.mem_append.mpr (Or.inr ((hnewly n).mpr ⟨hc, hall⟩))
        · have hall' : ∀ b ∈ deps n, b ∈ done := by
            intro b hb
            rcases List.mem_append.mp (hall b hb) with h | h
            · exact h
            · exact absurd ((List.mem_singleton.mp h) ▸ hb) hmd
          have := (inv.qIff n hn hnd.1).mpr hall'
          rcases List.mem_cons.mp this with h | h
          · exact absurd h hnd.2
          · exact List.mem_append.mpr (Or.inl h)
  exact ⟨cs, hcsget, hcsnd, hcsiff, hloop, hnewly, inv'⟩

/-- When every node has at most one dependency and the children lists are the
sibling classes in `ids` order, the Kahn loop preserves each sibling class and
the root class: the output lists them in the same relative order as `ids`. -/
theorem kahn_preserve (ids : List String) (deps : String → List String)
    (hdeg : ∀ n ∈ ids, (deps n).length ≤ 1)
    (hacyc : ∃ rank : String → Nat, ∀ n ∈ ids, ∀ b ∈ deps n, rank b < rank n) :
    ∀ (fuel : Nat) (done queue : List String) (ind : OMap Int) (ch : OMap (List String)),
    KahnInv ids deps done queue ind ch →
    (∀ p ∈ ids, omapGet ch p = some (sibClass deps p ids)) →
    ids.length ≤ fuel + done.length →
    (∀ p, (p ∈ done → sibClass deps p (done ++ queue) = sibClass deps p ids) ∧
          (p ∉ done → sibClass deps p (done ++ queue) = [])) →
    rootClass deps (done ++ queue) = rootClass deps ids →
    ((∀ p ∈ ids, sibClass deps p (done ++ kahnLoop ch fuel ind queue) = sibClass deps p ids) ∧
     rootClass deps (done ++ kahnLoop ch fuel ind queue) = rootClass deps ids) := by
  intro fuel
  induction fuel with
  | zero =>
    intro done queue ind ch inv hch hlen hsib hroot
    obtain ⟨rank, hrank⟩ := hacyc
    obtain ⟨-, -, -, c4⟩ := kahn_master ids deps 0 done queue ind ch inv hlen
    have hdone : ∀ n ∈ ids, n ∈ done := by
      intro n hnm
      have := c4 rank hrank n hnm
      rw [show kahnLoop ch 0 ind queue = [] from rfl] at this
      simpa using this
    have hq : queue = [] := by
      rw [List.eq_nil_iff_forall_not_mem]
      intro x hx
      obtain ⟨hx1, hx2⟩ := inv.qSub x hx
      exact hx2 (hdone x hx1)
    subst hq
    simp only [List.append_nil] at hsib hroot
    rw [show kahnLoop ch 0 ind [] = [] from rfl, List.append_nil]
    exact ⟨fun p hp => (hsib p).1 (hdone p hp), hroot⟩
  | succ fuel ih =>
    intro done queue ind ch inv hch hlen hsib hroot
    match queue with
    | [] =>
      obtain ⟨rank, hrank⟩ := hacyc
      obtain ⟨-, -, -, c4⟩ := kahn_master ids deps (fuel + 1) done [] ind ch inv hlen
      have hdone : ∀ n ∈ ids, n ∈ done := by
        intro n hnm
        have := c4 rank hrank n hnm
        rw [show kahnLoop ch (fuel + 1) ind [] = [] from rfl] at this
        simpa using this
      simp only [List.append_nil] at hsib hroot
      rw [show kahnLoop ch (fuel + 1) ind [] = [] from rfl, List.append_nil]
      exact ⟨fun p hp => (hsib p).1 (hdone p hp), hroot⟩
    | m :: rest =>
      obtain ⟨hmids, hmdone⟩ := inv.qSub m (List.mem_cons_self m rest)
      obtain ⟨cs, hcsget, hcsnd, hcsiff, hloopAll, hnewly, inv'⟩ := kahn_step inv
      have hsing : ∀ c ∈ cs, deps c = [m] := by
        intro c hc
        obtain ⟨hcids, hcdep⟩ := (hcsiff c).mp hc
        exact singleton_of_len_le_one (hdeg c hcids) hcdep
      have hnewcs : cs.filter (fun c => (omapGet ind c).getD 0 - 1 = 0) = cs := by
        apply List.filter_eq_self.mpr
        intro c hc
        have hin : c ∈ cs.filter (fun c => (omapGet ind c).getD 0 - 1 = 0) := by
          apply (hnewly c).mpr
          refine ⟨hc, ?_⟩
          intro b hb
          rw [hsing c hc] at hb
          obtain rfl := List.mem_singleton.mp hb
          simp
        exact (List.mem_filter.mp hin).2
      rw [hnewcs] at hloopAll inv'
      have hcseq : cs = sibClass deps m ids := by
        have h1 := hch m hmids
        rw [hcsget] at h1
        exact Option.some.inj h1
      have hsibcs : ∀ p, p ≠ m → sibClass deps p cs = [] := by
        intro p hp
        rw [sibClass, List.filter_eq_nil_iff]
        intro c hc
        simp [hsing c hc, Ne.symm hp]
      have hsibmcs : sibClass deps m cs = cs := by
        apply List.filter_eq_self.mpr
        intro c hc
        simp [sibClass, hsing c hc]
      have hrootcs : rootClass deps cs = [] := by
        rw [rootClass, List.filter_eq_nil_iff]
        intro c hc
        simp [hsing c hc]
      have hshape : (done ++ [m]) ++ (rest ++ cs) = (done ++ m :: rest) ++ cs := by
        simp
      have hsib' : ∀ p,
          (p ∈ done ++ [m] →
            sibClass deps p ((done ++ [m]) ++ (rest ++ cs)) = sibClass deps p ids) ∧
          (p ∉ done ++ [m] →
            sibClass deps p ((done ++ [m]) ++ (rest ++ cs)) = []) := by
        intro p
        rw [hshape, sibClass_append]
        constructor
        · intro hp
          rcases List.mem_append.mp hp with hp | hp
          · have hpm : p ≠ m := fun hh => hmdone (hh ▸ hp)
            rw [hsibcs p hpm, List.append_nil]
            exact (hsib p).1 hp
          · obtain rfl := List.mem_singleton.mp hp
            rw [hsibmcs, (hsib p).2 hmdone, List.nil_append]
            exact hcseq
        · intro hp
          simp only [List.mem_append, List.mem_singleton, not_or] at hp
          rw [hsibcs p hp.2, (hsib p).2 hp.1]
          rfl
      have hroot' : rootClass deps ((done ++ [m]) ++ (rest ++ cs)) = rootClass deps ids := by
        rw [hshape, rootClass_append, hrootcs, List.append_nil]
        exact hroot
      have hlen' : ids.length ≤ fuel + (done ++ [m]).length := by
        simp only [List.length_append, List.length_singleton]
        omega
      obtain ⟨csib, croot⟩ := ih (done ++ [m]) (rest ++ cs)
        (cs.foldl kahnStep (ind, rest)).1 ch inv' hch hlen' hsib' hroot'
      rw [hloopAll]
      have hre : done ++ m :: kahnLoop ch fuel (cs.foldl kahnStep (ind, rest)).1 (rest ++ cs) =
          (done ++ [m]) ++ kahnLoop ch fuel (cs.foldl kahnStep (ind, rest)).1 (rest ++ cs) := by
        simp
      rw [hre]
      exact ⟨csib, croot⟩

/-- Folding `kahnStep` over the same children list from extensionally equal
in-degree maps yields extensionally equal maps and equal queues. -/
theorem kahnStep_fold_congr :
    ∀ (cs : List String) (ind₁ ind₂ : OMap Int) (q : List String),
    (∀ k, omapGet ind₁ k = omapGet ind₂ k) →
    ((∀ k, omapGet (cs.foldl kahnStep (ind₁, q)).1 k =
        omapGet (cs.foldl kahnStep (ind₂, q)).1 k) ∧
     (cs.foldl kahnStep (ind₁, q)).2 = (cs.foldl kahnStep (ind₂, q)).2) := by
  intro cs
  induction cs with
  | nil =>
    intro ind₁ ind₂ q h
    exact ⟨h, rfl⟩
  | cons c cs ih =>
    intro ind₁ ind₂ q h
    have hv : (omapGet ind₁ c).getD 0 - 1 = (omapGet ind₂ c).getD 0 - 1 := by rw [h c]
    have hstep₁ : kahnStep (ind₁, q) c =
        (omapSet ind₁ c ((omapGet ind₁ c).getD 0 - 1),
         if (omapGet ind₁ c).getD 0 - 1 = 0 then q ++ [c] else q) := by
      simp only [kahnStep]
      split <;> rfl
    have hstep₂ : kahnStep (ind₂, q) c =
        (omapSet ind₂ c ((omapGet ind₂ c).getD 0 - 1),
         if (omapGet ind₂ c).getD 0 - 1 = 0 then q ++ [c] else q) := by
      simp only [kahnStep]
      split <;> rfl
    have hget : ∀ k, omapGet (omapSet ind₁ c ((omapGet ind₁ c).getD 0 - 1)) k =
        omapGet (omapSet ind₂ c ((omapGet ind₂ c).getD 0 - 1)) k := by
      intro k
      by_cases hk : k = c
      · subst hk
        rw [omapGet_omapSet_self, omapGet_omapSet_self, hv]
      · rw [omapGet_omapSet_ne _ _ hk, omapGet_omapSet_ne _ _ hk, h k]
    have hq : (if (omapGet ind₁ c).getD 0 - 1 = 0 then q ++ [c] else q) =
        (if (omapGet ind₂ c).getD 0 - 1 = 0 then q ++ [c] else q) := by
      rw [hv]
    rw [List.foldl_cons, List.foldl_cons, hstep₁, hstep₂, hq]
    exact ih _ _ _ hget

/-- The Kahn loop is extensional in its maps: get-equal children and in-degree
maps produce the same output on the same queue and fuel. -/
theorem kahnLoop_congr (ch₁ ch₂ : OMap (List String))
    (hch : ∀ k, omapGet ch₁ k = omapGet ch₂ k) :
    ∀ (fuel : Nat) (ind₁ ind₂ : OMap Int) (q : List String),
    (∀ k, omapGet ind₁ k = omapGet ind₂ k) →
    kahnLoop ch₁ fuel ind₁ q = kahnLoop ch₂ fuel ind₂ q := by
  intro fuel
  induction fuel with
  | zero =>
    intro ind₁ ind₂ q h
    rfl
  | succ fuel ih =>
    intro ind₁ ind₂ q h
    match q with
    | [] => rfl
    | m :: rest =>
      have hcs : (omapGet ch₁ m).getD [] = (omapGet ch₂ m).getD [] := by rw [hch m]
      show m :: kahnLoop ch₁ fuel
            (((omapGet ch₁ m).getD []).foldl kahnStep (ind₁, rest)).1
            (((omapGet ch₁ m).getD []).foldl kahnStep (ind₁, rest)).2 =
          m :: kahnLoop ch₂ fuel
            (((omapGet ch₂ m).getD []).foldl kahnStep (ind₂, rest)).1
            (((omapGet ch₂ m).getD []).foldl kahnStep (ind₂, rest)).2
      rw [← hcs]
      obtain ⟨h1, h2⟩ := kahnStep_fold_congr ((omapGet ch₁ m).getD []) ind₁ ind₂ rest h
      rw [← h2]
      exact congrArg (fun l => m :: l) (ih _ _ _ h1)

/-! Instantiation of the preservation machinery for the row-level sort:
re-running `topoSortSelfRows` on its own acyclic output recomputes the same
in-degree and children maps up to `Map.get`, hence the same order. -/

theorem selfChFold_keys (rows l : List Row) (ch : OMap (List String)) :
    omapKeys (l.foldl (selfChStep rows) ch) = omapKeys ch := by
  induction l generalizing ch with
  | nil => rfl
  | cons r l ih =>
    rw [List.foldl_cons]
    have hkeys : omapKeys (selfChStep rows ch r) = omapKeys ch := by
      rcases htr : rowTruthyParent r with _ | pid
      · have hstep : selfChStep rows ch r = ch := by
          unfold selfChStep
          rw [htr]
        rw [hstep]
      · by_cases hc : (rows.map (fun x => x.id)).contains pid = true
        · cases hg : omapGet ch pid with
          | none =>
            have hstep : selfChStep rows ch r = ch := by
              unfold selfChStep
              rw [htr]
              show (if (rows.map (fun x => x.id)).contains pid = true then
                  match omapGet ch pid with
                  | some s => omapSet ch pid (osetAdd s r.id)
                  | none => ch
                else ch) = ch
              rw [if_pos hc, hg]
            rw [hstep]
          | some s =>
            have hstep : selfChStep rows ch r = omapSet ch pid (osetAdd s r.id) := by
              unfold selfChStep
              rw [htr]
              show (if (rows.map (fun x => x.id)).contains pid = true then
                  match omapGet ch pid with
                  | some s => omapSet ch pid (osetAdd s r.id)
                  | none => ch
                else ch) = omapSet ch pid (osetAdd s r.id)
              rw [if_pos hc, hg]
            rw [hstep]
            exact omapKeys_omapSet_of_mem _ (mem_omapKeys_of_get hg)
        · have hstep : selfChStep rows ch r = ch := by
            unfold selfChStep
            rw [htr]
            show (if (rows.map (fun x => x.id)).contains pid = true then
                match omapGet ch pid with
                | some s => omapSet ch pid (osetAdd s r.id)
                | none => ch
              else ch) = ch
            rw [if_neg hc]
          rw [hstep]
    rw [ih, hkeys]

theorem selfCh_keys (rows : List Row) (hn : (rows.map (fun r => r.id)).Nodup) :
    omapKeys (selfInDegChildren rows).2 = rows.map (fun r => r.id) := by
  rw [selfInDegChildren_split]
  rw [selfChFold_keys]
  rw [foldl_set_eq_append rows (fun r => r.id) (fun _ => ([] : List String)) [] hn
    (by simp [omapKeys])]
  simp [omapKeys]

theorem selfCh_get_none (rows : List Row)
    (hn : (rows.map (fun r => r.id)).Nodup) {p : String}
    (hp : p ∉ rows.map (fun r => r.id)) :
    omapGet (selfInDegChildren rows).2 p = none := by
  rw [omapGet_eq_none_iff, selfCh_keys rows hn]
  exact hp

theorem selfInd_get_none (rows : List Row)
    (hn : (rows.map (fun r => r.id)).Nodup) {p : String}
    (hp : p ∉ rows.map (fun r => r.id)) :
    omapGet (selfInDegChildren rows).1 p = none := by
  rw [omapGet_eq_none_iff, selfInd_keys rows hn]
  exact hp

theorem depsOfRow_perm (rows o : List Row)
    (hn : (rows.map (fun r => r.id)).Nodup) (hperm : List.Perm o rows) :
    ∀ x, depsOfRow o x = depsOfRow rows x := by
  intro x
  have hn₂ : (o.map (fun r => r.id)).Nodup :=
    ((hperm.map (fun r => r.id)).nodup_iff).mpr hn
  have hcon : ∀ pid, (o.map (fun y => y.id)).contains pid =
      (rows.map (fun y => y.id)).contains pid := by
    intro pid
    cases hc : (rows.map (fun y => y.id)).contains pid with
    | true =>
      exact contains_iff_mem.mpr ((hperm.map (fun y => y.id)).mem_iff.mpr
        (contains_iff_mem.mp hc))
    | false =>
      cases hc₂ : (o.map (fun y => y.id)).contains pid with
      | false => rfl
      | true =>
        exfalso
        have hmem := (hperm.map (fun y => y.id)).mem_iff.mp (contains_iff_mem.mp hc₂)
        rw [contains_iff_mem.mpr hmem] at hc
        cases hc
  by_cases hx : x ∈ rows.map (fun r => r.id)
  · obtain ⟨r, hr, rfl⟩ := List.mem_map.mp hx
    have hro : r ∈ o := hperm.mem_iff.mpr hr
    cases htr : rowTruthyParent r with
    | none => rw [depsOfRow_eq_of_falsy hn₂ hro htr, depsOfRow_eq_of_falsy hn hr htr]
    | some pid =>
      rw [depsOfRow_eq_of_truthy hn₂ hro htr, depsOfRow_eq_of_truthy hn hr htr, hcon pid]
  · have hx₂ : x ∉ o.map (fun r => r.id) :=
      fun hh => hx ((hperm.map (fun r => r.id)).mem_iff.mp hh)
    have hf₁ : rows.find? (fun r => r.id == x) = none := by
      rw [List.find?_eq_none]
      intro r hr
      simp only [ne_eq, beq_iff_eq]
      intro hh
      exact hx (List.mem_map.mpr ⟨r, hr, hh⟩)
    have hf₂ : o.find? (fun r => r.id == x) = none := by
      rw [List.find?_eq_none]
      intro r hr
      simp only [ne_eq, beq_iff_eq]
      intro hh
      exact hx₂ (List.mem_map.mpr ⟨r, hr, hh⟩)
    rw [depsOfRow_find_none hf₂, depsOfRow_find_none hf₁]

theorem selfInd_perm_get (rows o : List Row)
    (hn : (rows.map (fun r => r.id)).Nodup) (hperm : List.Perm o rows) :
    ∀ k, omapGet (selfInDegChildren o).1 k = omapGet (selfInDegChildren rows).1 k := by
  intro k
  have hn₂ : (o.map (fun r => r.id)).Nodup :=
    ((hperm.map (fun r => r.id)).nodup_iff).mpr hn
  by_cases hk : k ∈ rows.map (fun r => r.id)
  · obtain ⟨r, hr, rfl⟩ := List.mem_map.mp hk
    have hro : r ∈ o := hperm.mem_iff.mpr hr
    rw [selfInd_get_of_mem o hn₂ hro, selfInd_get_of_mem rows hn hr,
      depsOfRow_perm rows o hn hperm r.id]
  · have hk₂ : k ∉ o.map (fun r => r.id) :=
      fun hh => hk ((hperm.map (fun r => r.id)).mem_iff.mp hh)
    rw [selfInd_get_none o hn₂ hk₂, selfInd_get_none rows hn hk]

theorem filter_truthy_eq_sibClass (rows l : List Row)
    (hn : (rows.map (fun r => r.id)).Nodup) (hl : ∀ r ∈ l, r ∈ rows)
    {p : String} (hp : p ∈ rows.map (fun x => x.id)) :
    (l.filter (fun r => rowTruthyParent r = some p)).map (fun r => r.id) =
      sibClass (depsOfRow rows) p (l.map (fun r => r.id)) := by
  rw [sibClass, List.filter_map]
  congr 1
  apply List.filter_congr
  intro r hr
  show decide (rowTruthyParent r = some p) = decide (depsOfRow rows r.id = [p])
  apply decide_eq_decide.mpr
  rw [depsOfRow_eq hn (hl r hr)]
  cases htr : rowTruthyParent r with
  | none => simp
  | some pid =>
    show some pid = some p ↔
      (if (rows.map (fun y => y.id)).contains pid = true then [pid] else []) = [p]
    by_cases hc : (rows.map (fun y => y.id)).contains pid = true
    · rw [if_pos hc]
      simp
    · rw [if_neg hc]
      simp only [Option.some.injEq]
      constructor
      · rintro rfl
        exact absurd (contains_iff_mem.mpr hp) hc
      · intro hh
        simp at hh

theorem filter_ind_zero_eq_rootClass (rows : List Row)
    (hn : (rows.map (fun r => r.id)).Nodup) (l : List String)
    (hl : ∀ k ∈ l, k ∈ rows.map (fun r => r.id)) :
    l.filter (fun k => omapGet (selfInDegChildren rows).1 k = some 0) =
      rootClass (depsOfRow rows) l := by
  rw [rootClass]
  apply List.filter_congr
  intro k hk
  obtain ⟨r, hr, rfl⟩ := List.mem_map.mp (hl k hk)
  show decide (omapGet (selfInDegChildren rows).1 r.id = some 0) =
    decide (depsOfRow rows r.id = [])
  rw [selfInd_get_of_mem rows hn hr]
  apply decide_eq_decide.mpr
  constructor
  · intro hh
    have hl0 : (depsOfRow rows r.id).length = 0 := by
      exact_mod_cast Option.some.inj hh
    exact List.length_eq_zero.mp hl0
  · intro hh
    simp [hh]

theorem depsOfRow_deg_le_one (rows : List Row)
    (hn : (rows.map (fun r => r.id)).Nodup) :
    ∀ n ∈ rows.map (fun r => r.id), (depsOfRow rows n).length ≤ 1 := by
  intro n hnm
  obtain ⟨r, hr, rfl⟩ := List.mem_map.mp hnm
  rw [depsOfRow_len hn hr]
  by_cases hs : selfHasDep rows r <;> simp [hs]

theorem selfKahn_sib_preserve (rows : List Row)
    (hn : (rows.map (fun r => r.id)).Nodup)
    (hacyc : ∃ rank : String → Nat, ∀ n ∈ rows.map (fun r => r.id),
      ∀ b ∈ depsOfRow rows n, rank b < rank n) :
    (∀ p ∈ rows.map (fun r => r.id),
      sibClass (depsOfRow rows) p (selfKahnIds rows) =
        sibClass (depsOfRow rows) p (rows.map (fun r => r.id))) ∧
    rootClass (depsOfRow rows) (selfKahnIds rows) =
      rootClass (depsOfRow rows) (rows.map (fun r => r.id)) := by
  have hch : ∀ p ∈ rows.map (fun r => r.id),
      omapGet (selfInDegChildren rows).2 p =
        some (sibClass (depsOfRow rows) p (rows.map (fun r => r.id))) := by
    intro p hp
    rw [selfCh_get_of_mem rows hn hp]
    exact congrArg some (filter_truthy_eq_sibClass rows rows hn (fun r h => h) hp)
  have hsib0 : ∀ p,
      (p ∈ ([] : List String) →
        sibClass (depsOfRow rows) p ([] ++ initQueue (selfInDegChildren rows).1) =
          sibClass (depsOfRow rows) p (rows.map (fun r => r.id))) ∧
      (p ∉ ([] : List String) →
        sibClass (depsOfRow rows) p ([] ++ initQueue (selfInDegChildren rows).1) = []) := by
    intro p
    refine ⟨fun hp => absurd hp (List.not_mem_nil p), fun _ => ?_⟩
    rw [List.nil_append, sibClass, List.filter_eq_nil_iff]
    intro k hk
    rw [selfInitQueue_eq rows hn] at hk
    obtain ⟨hkm, hz⟩ := List.mem_filter.mp hk
    obtain ⟨r, hr, rfl⟩ := List.mem_map.mp hkm
    rw [selfInd_get_of_mem rows hn hr] at hz
    simp only [Option.some.injEq, decide_eq_true_eq] at hz
    have hl0 : (depsOfRow rows r.id).length = 0 := by exact_mod_cast hz
    simp [List.length_eq_zero.mp hl0]
  have hroot0 : rootClass (depsOfRow rows) ([] ++ initQueue (selfInDegChildren rows).1) =
      rootClass (depsOfRow rows) (rows.map (fun r => r.id)) := by
    rw [List.nil_append, selfInitQueue_eq rows hn,
      filter_ind_zero_eq_rootClass rows hn _ (fun k hk => hk)]
    show (rootClass (depsOfRow rows) (rows.map (fun r => r.id))).filter
        (fun c => decide (depsOfRow rows c = [])) =
      rootClass (depsOfRow rows) (rows.map (fun r => r.id))
    apply List.filter_eq_self.mpr
    intro c hc
    exact (List.mem_filter.mp hc).2
  obtain ⟨csib, croot⟩ := kahn_preserve (rows.map (fun r => r.id)) (depsOfRow rows)
    (depsOfRow_deg_le_one rows hn) hacyc rows.length [] (initQueue (selfInDegChildren rows).1)
    (selfInDegChildren rows).1 (selfInDegChildren rows).2
    (rows_initial_inv rows hn) hch (by simp) hsib0 hroot0
  refine ⟨?_, ?_⟩
  · intro p hp
    have hc := csib p hp
    simpa using hc
  · simpa using croot

theorem selfKahnRows_perm_of_acyclic (rows : List Row)
    (hn : (rows.map (fun r => r.id)).Nodup)
    (hacyc : ∃ rank : String → Nat, ∀ n ∈ rows.map (fun r => r.id),
      ∀ b ∈ depsOfRow rows n, rank b < rank n) :
    List.Perm (selfKahnRows rows) rows := by
  obtain ⟨rank, hrank⟩ := hacyc
  have hcomp := (selfKahnIds_spec rows hn).2.2.2 rank hrank
  have hknd : (selfKahnRows rows).Nodup :=
    ((selfKahnRows_map_id rows hn) ▸ (selfKahnIds_spec rows hn).1).of_map
  have hrownd : rows.Nodup := hn.of_map
  refine (List.perm_ext_iff_of_nodup hknd hrownd).mpr ?_
  intro r
  constructor
  · intro hr
    exact selfKahnRows_sub rows hn r hr
  · intro hr
    have hid : r.id ∈ selfKahnIds rows := hcomp r.id (List.mem_map.mpr ⟨r, hr, rfl⟩)
    rw [← selfKahnRows_map_id rows hn] at hid
    obtain ⟨r', hr', hid'⟩ := List.mem_map.mp hid
    have h : r' = r := List.inj_on_of_nodup_map hn
      (selfKahnRows_sub rows hn r' hr') hr hid'
    exact h ▸ hr'

theorem selfCh_rerun_get (rows : List Row)
    (hn : (rows.map (fun r => r.id)).Nodup)
    (hacyc : ∃ rank : String → Nat, ∀ n ∈ rows.map (fun r => r.id),
      ∀ b ∈ depsOfRow rows n, rank b < rank n) :
    ∀ k, omapGet (selfInDegChildren (selfKahnRows rows)).2 k =
      omapGet (selfInDegChildren rows).2 k := by
  intro k
  have hperm := selfKahnRows_perm_of_acyclic rows hn hacyc
  have hn₂ : ((selfKahnRows rows).map (fun r => r.id)).Nodup :=
    ((hperm.map (fun r => r.id)).nodup_iff).mpr hn
  by_cases hk : k ∈ rows.map (fun x => x.id)
  · have hk₂ : k ∈ (selfKahnRows rows).map (fun x => x.id) :=
      (hperm.map (fun x => x.id)).mem_iff.mpr hk
    rw [selfCh_get_of_mem (selfKahnRows rows) hn₂ hk₂, selfCh_get_of_mem rows hn hk]
    apply congrArg some
    rw [filter_truthy_eq_sibClass rows (selfKahnRows rows) hn
        (fun r h => hperm.subset h) hk,
      filter_truthy_eq_sibClass rows rows hn (fun r h => h) hk,
      selfKahnRows_map_id rows hn]
    exact (selfKahn_sib_preserve rows hn hacyc).1 k hk
  · have hk₂ : k ∉ (selfKahnRows rows).map (fun x => x.id) :=
      fun hh => hk ((hperm.map (fun x => x.id)).mem_iff.mp hh)
    rw [selfCh_get_none (selfKahnRows rows) hn₂ hk₂, selfCh_get_none rows hn hk]

theorem selfInitQueue_rerun (rows : List Row)
    (hn : (rows.map (fun r => r.id)).Nodup)
    (hacyc : ∃ rank : String → Nat, ∀ n ∈ rows.map (fun r => r.id),
      ∀ b ∈ depsOfRow rows n, rank b < rank n) :
    initQueue (selfInDegChildren (selfKahnRows rows)).1 =
      initQueue (selfInDegChildren rows).1 := by
  have hperm := selfKahnRows_perm_of_acyclic rows hn hacyc
  have hn₂ : ((selfKahnRows rows).map (fun r => r.id)).Nodup :=
    ((hperm.map (fun r => r.id)).nodup_iff).mpr hn
  rw [selfInitQueue_eq (selfKahnRows rows) hn₂, selfInitQueue_eq rows hn]
  have hstep : ((selfKahnRows rows).map (fun r => r.id)).filter
        (fun k => omapGet (selfInDegChildren (selfKahnRows rows)).1 k = some 0) =
      ((selfKahnRows rows).map (fun r => r.id)).filter
        (fun k => omapGet (selfInDegChildren rows).1 k = some 0) := by
    apply List.filter_congr
    intro k _
    show decide (omapGet (selfInDegChildren (selfKahnRows rows)).1 k = some 0) =
      decide (omapGet (selfInDegChildren rows).1 k = some 0)
    rw [selfInd_perm_get rows (selfKahnRows rows) hn hperm k]
  rw [hstep, selfKahnRows_map_id rows hn,
    filter_ind_zero_eq_rootClass rows hn (selfKahnIds rows) (selfKahnIds_spec rows hn).2.1,
    filter_ind_zero_eq_rootClass rows hn (rows.map (fun r => r.id)) (fun k hk => hk)]
  exact (selfKahn_sib_preserve rows hn hacyc).2

theorem selfKahnIds_rerun (rows : List Row)
    (hn : (rows.map (fun r => r.id)).Nodup)
    (hacyc : ∃ rank : String → Nat, ∀ n ∈ rows.map (fun r => r.id),
      ∀ b ∈ depsOfRow rows n, rank b < rank n) :
    selfKahnIds (selfKahnRows rows) = selfKahnIds rows := by
  have hperm := selfKahnRows_perm_of_acyclic rows hn hacyc
  have hfuel : (selfKahnRows rows).length = rows.length := hperm.length_eq
  show kahnLoop (selfInDegChildren (selfKahnRows rows)).2 (selfKahnRows rows).length
      (selfInDegChildren (selfKahnRows rows)).1
      (initQueue (selfInDegChildren (selfKahnRows rows)).1) = selfKahnIds rows
  rw [selfInitQueue_rerun rows hn hacyc, hfuel]
  exact kahnLoop_congr (selfInDegChildren (selfKahnRows rows)).2 (selfInDegChildren rows).2
    (selfCh_rerun_get rows hn hacyc) rows.length
    (selfInDegChildren (selfKahnRows rows)).1 (selfInDegChildren rows).1
    (initQueue (selfInDegChildren rows).1)
    (selfInd_perm_get rows (selfKahnRows rows) hn hperm)

theorem eq_of_map_id_eq {base : List Row}
    (hn : (base.map (fun r => r.id)).Nodup) :
    ∀ (l₁ l₂ : List Row), (∀ r ∈ l₁, r ∈ base) → (∀ r ∈ l₂, r ∈ base) →
    l₁.map (fun r => r.id) = l₂.map (fun r => r.id) → l₁ = l₂ := by
  intro l₁
  induction l₁ with
  | nil =>
    intro l₂ h₁ h₂ hid
    cases l₂ with
    | nil => rfl
    | cons b t => simp at hid
  | cons a t ih =>
    intro l₂ h₁ h₂ hid
    cases l₂ with
    | nil => simp at hid
    | cons b s =>
      simp only [List.map_cons, List.cons.injEq] at hid
      have hab : a = b := List.inj_on_of_nodup_map hn
        (h₁ a (List.mem_cons_self a t)) (h₂ b (List.mem_cons_self b s)) hid.1
      rw [hab, ih s (fun r hr => h₁ r (List.mem_cons_of_mem a hr))
        (fun r hr => h₂ r (List.mem_cons_of_mem b hr)) hid.2]

theorem selfKahnRows_rerun (rows : List Row)
    (hn : (rows.map (fun r => r.id)).Nodup)
    (hacyc : ∃ rank : String → Nat, ∀ n ∈ rows.map (fun r => r.id),
      ∀ b ∈ depsOfRow rows n, rank b < rank n) :
    selfKahnRows (selfKahnRows rows) = selfKahnRows rows := by
  have hperm := selfKahnRows_perm_of_acyclic rows hn hacyc
  have hn₂ : ((selfKahnRows rows).map (fun r => r.id)).Nodup :=
    ((hperm.map (fun r => r.id)).nodup_iff).mpr hn
  have hids : selfKahnIds (selfKahnRows rows) =
      (selfKahnRows rows).map (fun r => r.id) := by
    rw [selfKahnIds_rerun rows hn hacyc, selfKahnRows_map_id rows hn]
  show (selfKahnIds (selfKahnRows rows)).filterMap
      (fun i => omapGet (rowById (selfKahnRows rows)) i) = selfKahnRows rows
  obtain ⟨hmap, hsub⟩ := filterMap_byId_spec (selfKahnRows rows) hn₂
    (selfKahnIds (selfKahnRows rows)) (by rw [hids]; exact fun x hx => hx)
  exact eq_of_map_id_eq hn₂ _ _ hsub (fun r hr => hr) (by rw [hmap, hids])

/-- C5: for every row set with distinct ids whose self-reference row graph is
acyclic (witnessed by a rank function that decreases along parent links),
re-running `topoSortSelfRows` on its own output returns that output unchanged:
the resolver is idempotent on acyclic inputs. -/
theorem c5_resolver_idempotent (rows : List Row)
    (hn : (rows.map (fun r => r.id)).Nodup)
    (hacyc : ∃ rank : String → Nat, ∀ n ∈ rows.map (fun r => r.id),
      ∀ b ∈ depsOfRow rows n, rank b < rank n) :
    topoSortSelfRows (topoSortSelfRows rows).ordered = topoSortSelfRows rows := by
  have hperm := selfKahnRows_perm_of_acyclic rows hn hacyc
  have hlenKR : (selfKahnRows rows).length = rows.length := hperm.length_eq
  have h1 : topoSortSelfRows rows = ⟨selfKahnRows rows, false⟩ := by
    rw [topoSortSelfRows_def, if_neg (by simp [hlenKR])]
    simp [hlenKR]
  have hkr : selfKahnRows (selfKahnRows rows) = selfKahnRows rows :=
    selfKahnRows_rerun rows hn hacyc
  have h2 : topoSortSelfRows (selfKahnRows rows) = ⟨selfKahnRows rows, false⟩ := by
    rw [topoSortSelfRows_def, if_neg (by simp [hkr])]
    rw [hkr]
    simp
  rw [h1]
  show topoSortSelfRows (selfKahnRows rows) = (⟨selfKahnRows rows, false⟩ : SelfSortResult)
  rw [h2]

/-- Witness for C5: the three-row Task scenario has distinct ids and an
acyclic row graph (rank by id), and re-running the resolver on its own output
returns it unchanged. -/
theorem c5_resolver_idempotent_witness :
    ((taskRows.map (fun r => r.id)).Nodup ∧
     (∃ rank : String → Nat, ∀ n ∈ taskRows.map (fun r => r.id),
        ∀ b ∈ depsOfRow taskRows n, rank b < rank n)) ∧
    topoSortSelfRows (topoSortSelfRows taskRows).ordered = topoSortSelfRows taskRows := by
  refine ⟨⟨by decide, ⟨fun s => if s = "1" then 0 else if s = "2" then 1 else 2, by decide⟩⟩,
    c5_resolver_idempotent taskRows (by decide)
      ⟨fun s => if s = "1" then 0 else if s = "2" then 1 else 2, by decide⟩⟩

end Mig
